import Mathlib

set_option maxRecDepth 40000

/-!
Shallow embedding of the gutenblog GML compiler core.

Sources: src/gml/lex.go and src/gml/parse.go (first revision in each file,
which is the one the claims cite by line number).

Modelling conventions:
- A Go string is modelled as a `List Char` of unicode code points.  The Go
  lexer walks bytes and `width` is the byte width of a rune; here positions
  count code points and `width` is 0 (at end of input) or 1, exactly the
  values Go produces on ASCII input.  No claim below depends on byte
  offsets of non-ASCII text.
- `unicode.IsDigit` / `strings.ToLower` are modelled by their ASCII parts
  (`Char.isDigit`, `Char.toLower`).  They agree with Go on all ASCII input;
  the keyword table is ASCII so keyword recognition is unaffected.
- The lexer's goroutine/channel pair delivers items in emission order and
  closes the channel after the terminal item; it is modelled as the finite
  list of emitted items.  Reading from the closed channel yields the zero
  `item` value, which the parser model reproduces.
- Loops are written with an explicit iteration bound (first argument).
  Every loop of the Go lexer consumes at least one character per iteration,
  so callers pass the number of characters left in the input; the bound-zero
  fallbacks coincide with what the Go loop does when the scanner sits at
  end of input.
-/

/-- Item kinds, in the declaration order of the Go `itemType` iota block. -/
inductive itemType where
  | error
  | eof
  | text
  | paragraph
  | headingOne
  | headingTwo
  | headingThree
  | unorderedList
  | orderedList
  | keyword
  | title
  | subtitle
  | date
  | author
  | pre
  | html
  | figure
  | footnotes
  | blockquote
deriving DecidableEq, Repr

/-- Numeric value of an `itemType`, matching the Go iota constants. -/
def itemType.toNat : itemType → Nat
  | .error => 0
  | .eof => 1
  | .text => 2
  | .paragraph => 3
  | .headingOne => 4
  | .headingTwo => 5
  | .headingThree => 6
  | .unorderedList => 7
  | .orderedList => 8
  | .keyword => 9
  | .title => 10
  | .subtitle => 11
  | .date => 12
  | .author => 13
  | .pre => 14
  | .html => 15
  | .figure => 16
  | .footnotes => 17
  | .blockquote => 18

/-- The `key` map of lex.go: keyword string to item kind. -/
def keyFor (w : String) : Option itemType :=
  if w = "%title" then some .title
  else if w = "%subtitle" then some .subtitle
  else if w = "%date" then some .date
  else if w = "%author" then some .author
  else if w = "%pre" then some .pre
  else if w = "%html" then some .html
  else if w = "%figure" then some .figure
  else if w = "%footnotes" then some .footnotes
  else if w = "%blockquote" then some .blockquote
  else none

/-- A lexer item: kind, value and source offset (Go struct `item`). -/
structure item where
  typ : itemType
  val : String
  pos : Nat
deriving DecidableEq, Repr

/-- Terminal items are the control items `Error` and `EOF`. -/
def isTerminalItem (i : item) : Bool :=
  i.typ = itemType.error || i.typ = itemType.eof

/-- Lexer state (Go struct `lexer`, minus the output channel). -/
structure lexer where
  input : List Char
  pos : Nat
  start : Nat
  width : Nat
deriving DecidableEq, Repr

/-- Go `lexer.next`: return the rune at `pos` (as `some c`; `none` is eof)
and advance, recording the consumed width. -/
def lexer.next (l : lexer) : Option Char × lexer :=
  if h : l.pos < l.input.length then
    (some (l.input.get ⟨l.pos, h⟩), { l with pos := l.pos + 1, width := 1 })
  else
    (none, { l with width := 0 })

/-- Go `lexer.backup`: step back over the last consumed rune. -/
def lexer.backup (l : lexer) : lexer :=
  { l with pos := l.pos - l.width }

/-- Go `lexer.ignore`: drop the pending text. -/
def lexer.ignore (l : lexer) : lexer :=
  { l with start := l.pos }

/-- Go `lexer.peek`: `next` followed by `backup` (note: it updates `width`). -/
def lexer.peek (l : lexer) : Option Char × lexer :=
  let (r, l') := l.next
  (r, l'.backup)

/-- Go slice expression `input[a:b]` on the modelled input. -/
def substr (cs : List Char) (a b : Nat) : String :=
  String.mk ((cs.take b).drop a)

/-- Go `lexer.emit`: produce an item holding `input[start:pos]` and move
`start` up to `pos`. -/
def lexer.emit (l : lexer) (t : itemType) : item × lexer :=
  (⟨t, substr l.input l.start l.pos, l.start⟩, { l with start := l.pos })

/-- The item sent by Go `lexer.errorf` (message, offset `start`). -/
def lexer.errorItem (l : lexer) (msg : String) : item :=
  ⟨.error, msg, l.start⟩

/-- Go `isSpace`. -/
def isSpaceChar (c : Char) : Bool := c = ' ' || c = '\t'

/-- Go `isNewline`. -/
def isNewlineChar (c : Char) : Bool := c = '\n'

/-- `isSpace` lifted to the rune-or-eof result of `next` (eof is no space). -/
def isSpaceO : Option Char → Bool
  | some c => isSpaceChar c
  | none => false

/-- `isNewline` lifted to the rune-or-eof result of `next`. -/
def isNewlineO : Option Char → Bool
  | some c => isNewlineChar c
  | none => false

/-- Go `isDigit` (`unicode.IsDigit`), restricted to its ASCII part. -/
def isDigitO : Option Char → Bool
  | some c => c.isDigit
  | none => false

/-- Go `strings.ToLower`, restricted to its ASCII part (the keyword table
is ASCII, so keyword lookup is unaffected). -/
def lowerString (s : String) : String :=
  String.mk (s.data.map Char.toLower)

/-- Go `%q` of a string: double quotes around the text with the usual
escapes for the characters that can occur in our claims. -/
def goQuoteChar (c : Char) : List Char :=
  if c = '\\' then ['\\', '\\']
  else if c = '"' then ['\\', '"']
  else if c = '\n' then ['\\', 'n']
  else if c = '\t' then ['\\', 't']
  else [c]

/-- Go `%q` of a string (printable-ASCII fragment of `strconv.Quote`). -/
def goQuote (s : String) : String :=
  String.mk ('"' :: s.data.foldr (fun c acc => goQuoteChar c ++ acc) ['"'])

/-- The state functions of lex.go. -/
inductive lexState where
  | block
  | keyword
  | heading
  | unorderedList
  | orderedList
  | paragraph
deriving DecidableEq, Repr

/-- Result of running one state function: either the terminal item (the
state function returned `nil` after sending `EOF` or an error), or the next
state function together with the updated lexer. -/
inductive stepRes where
  | halt (t : item)
  | cont (s : lexState) (l : lexer)
deriving DecidableEq, Repr

/-- Number of characters left in front of the scanner. -/
def lexRemaining (l : lexer) : Nat := l.input.length - l.pos

/-- The scan-to-end-of-line loop (`for { if r := l.next(); isNewline(r) ||
r == eof { l.backup(); break } }`), used for keyword values, heading text,
list items and inside paragraphs/keyword bodies. -/
def scanLineF : Nat → lexer → lexer
  | 0, l => ((l.next).2).backup
  | fuel+1, l =>
    let (r, l') := l.next
    if isNewlineO r || r = none then l'.backup
    else scanLineF fuel l'

/-- The skip-spaces loop (`for { if r := l.next(); !isSpace(r) { l.backup();
break } else if r == eof { ... } }`).  The Go eof branch is unreachable:
`isSpace(eof)` is false, so eof always takes the first branch. -/
def skipSpacesF : Nat → lexer → lexer
  | 0, l => ((l.next).2).backup
  | fuel+1, l =>
    let (r, l') := l.next
    if !(isSpaceO r) then l'.backup
    else skipSpacesF fuel l'

/-- The keyword-scanning loop of `lexKeyword`; `none` is the
`unexpected eof while scanning keyword` error case. -/
def scanKeywordF : Nat → lexer → Option lexer
  | 0, _ => none
  | fuel+1, l =>
    let (r, l') := l.next
    if isSpaceO r || isNewlineO r then some l'.backup
    else if r = none then none
    else scanKeywordF fuel l'

/-- The star-counting loop of `lexHeading`. -/
def scanStarsF : Nat → lexer → lexer
  | 0, l => ((l.next).2).backup
  | fuel+1, l =>
    let (r, l') := l.next
    if r ≠ some '*' then l'.backup
    else scanStarsF fuel l'

/-- The digit loop of `lexOrderedList`; the boolean tells whether the loop
broke at a `'.'` (true) or fell through to paragraph (false, backed up). -/
def scanDigitsF : Nat → lexer → lexer × Bool
  | 0, l => (((l.next).2).backup, false)
  | fuel+1, l =>
    let (r, l') := l.next
    if isDigitO r then scanDigitsF fuel l'
    else if r = some '.' then (l', true)
    else (l'.backup, false)

/-- `lexBlock`: skip blank space, dispatch on the first rune of a block. -/
def lexBlockF : Nat → lexer → List item × stepRes
  | 0, l =>
    let (i, _) := ((l.next).2).emit .eof
    ([], .halt i)
  | fuel+1, l =>
    let (r, l') := l.next
    if r = some '%' then ([], .cont .keyword l')
    else if r = some '*' then ([], .cont .heading l')
    else if r = some '-' then ([], .cont .unorderedList l')
    else if isDigitO r then ([], .cont .orderedList l')
    else if isSpaceO r || isNewlineO r then lexBlockF fuel l'.ignore
    else if r = none then
      let (i, _) := l'.emit .eof
      ([], .halt i)
    else ([], .cont .paragraph l'.backup)

/-- The `%footnotes` special case of `lexKeyword` (lex.go lines 231-241):
consume the newline after the directive; if the character right after it is
not `'-'`, error out, otherwise consume the `'-'` and continue with the
unordered-list scanner. -/
def footnotesDispatch (l : lexer) : List item × stepRes :=
  let (r1, l1) := l.next
  if isNewlineO r1 then
    let (r2, l2) := l1.peek
    if r2 ≠ some '-' then
      ([], .halt (l2.errorItem "footnotes must be given as an unordered list"))
    else
      let (_, l3) := l2.next
      ([], .cont .unorderedList l3.ignore)
  else
    let (_, l3) := l1.next
    ([], .cont .unorderedList l3.ignore)

/-- The keyword-body loop of `lexKeyword` (after the keyword item was
emitted): consume verbatim `Text` lines until a blank line, another
keyword line, or end of input. -/
def keywordBodyF : Nat → lexer → List item × stepRes
  | 0, l =>
    let (i, _) := ((l.next).2).emit .eof
    ([], .halt i)
  | fuel+1, l =>
    let (a, l1) := l.next
    let (b, l2) := l1.peek
    if isNewlineO a && b = some '%' then ([], .cont .keyword l2.ignore)
    else if isNewlineO a && isNewlineO b then
      let (_, l3) := l2.next
      ([], .cont .block l3.ignore)
    else if a = none then
      let (i, _) := l2.emit .eof
      ([], .halt i)
    else if b = none then
      let (_, l3) := l2.next
      let (i, _) := l3.emit .eof
      ([], .halt i)
    else
      let l3 := if isNewlineO a then l2.ignore else l2
      let l4 := scanLineF (lexRemaining l3) l3
      let (i, l5) := l4.emit .text
      let (rest, res) := keywordBodyF fuel l5
      (i :: rest, res)

/-- `lexKeyword`: scan the `%word`, validate it, emit the keyword item with
the rest of the line as value, then the footnotes special case or the
keyword body. -/
def lexKeywordF (l : lexer) : List item × stepRes :=
  match scanKeywordF (lexRemaining l) l with
  | none => ([], .halt (l.errorItem "unexpected eof while scanning keyword"))
  | some l1 =>
    let word := lowerString (substr l1.input l1.start l1.pos)
    match keyFor word with
    | none => ([], .halt (l1.errorItem ("unrecognized keyword: " ++ goQuote word)))
    | some k =>
      let l2 := skipSpacesF (lexRemaining l1) l1
      let l3 := l2.ignore
      let l4 := scanLineF (lexRemaining l3) l3
      let (i, l5) := l4.emit k
      if k = .footnotes then
        let (rest, res) := footnotesDispatch l5
        (i :: rest, res)
      else
        let (rest, res) := keywordBodyF (lexRemaining l5) l5
        (i :: rest, res)

/-- `lexHeading`: count stars, validate the following space, emit a heading
item (level above three clamps to `HeadingThree`). -/
def lexHeadingF (l : lexer) : List item × stepRes :=
  let l1 := scanStarsF (lexRemaining l) l
  let level := ((l1.input.take l1.pos).drop l1.start).length
  let (p, l2) := l1.peek
  if !(isSpaceO p) then ([], .cont .paragraph l2)
  else
    let l3 := skipSpacesF (lexRemaining l2) l2
    let l4 := l3.ignore
    let l5 := scanLineF (lexRemaining l4) l4
    let k := if level = 1 then itemType.headingOne
             else if level = 2 then itemType.headingTwo
             else itemType.headingThree
    let (i, l6) := l5.emit k
    ([i], .cont .block l6)

/-- `lexUnorderedList` (the `-` was already consumed by the caller). -/
def lexUnorderedListF (l : lexer) : List item × stepRes :=
  let (p, l1) := l.peek
  if !(isSpaceO p) then ([], .cont .paragraph l1)
  else
    let l2 := skipSpacesF (lexRemaining l1) l1
    let l3 := l2.ignore
    let l4 := scanLineF (lexRemaining l3) l3
    let (i, l5) := l4.emit .unorderedList
    ([i], .cont .block l5)

/-- `lexOrderedList` (the first digit was already consumed by `lexBlock`). -/
def lexOrderedListF (l : lexer) : List item × stepRes :=
  let (l1, dot) := scanDigitsF (lexRemaining l) l
  if !dot then ([], .cont .paragraph l1)
  else
    let (p, l2) := l1.peek
    if !(isSpaceO p) then ([], .cont .paragraph l2)
    else
      let l3 := skipSpacesF (lexRemaining l2) l2
      let l4 := l3.ignore
      let l5 := scanLineF (lexRemaining l4) l4
      let (i, l6) := l5.emit .orderedList
      ([i], .cont .block l6)

/-- `lexParagraph`: consume non-blank lines into one `Paragraph` item. -/
def lexParagraphF : Nat → lexer → List item × stepRes
  | 0, l =>
    let (i1, lA) := ((l.next).2).emit .paragraph
    let (i2, _) := lA.emit .eof
    ([i1], .halt i2)
  | fuel+1, l =>
    let (a, l1) := l.next
    let (b, l2) := l1.peek
    if isNewlineO a && isNewlineO b then
      let l3 := l2.backup
      let (i, l4) := l3.emit .paragraph
      let (_, l5) := l4.next
      ([i], .cont .block l5.ignore)
    else if a = none then
      let (i1, l3) := l2.emit .paragraph
      let (i2, _) := l3.emit .eof
      ([i1], .halt i2)
    else if b = none then
      let (i1, l3) := l2.emit .paragraph
      let (_, l4) := l3.next
      let (i2, _) := l4.emit .eof
      ([i1], .halt i2)
    else
      let l3 := scanLineF (lexRemaining l2) l2
      lexParagraphF fuel l3

/-- One step of the lexer state machine. -/
def stepState : lexState → lexer → List item × stepRes
  | .block, l => lexBlockF (lexRemaining l) l
  | .keyword, l => lexKeywordF l
  | .heading, l => lexHeadingF l
  | .unorderedList, l => lexUnorderedListF l
  | .orderedList, l => lexOrderedListF l
  | .paragraph, l => lexParagraphF (lexRemaining l) l

/-- Go `lexer.run`: iterate state functions until one returns `nil`.  The
bound strictly exceeds the measure proven to decrease at every step, so it
is never exhausted (theorem `runFuel_enough` below). -/
def runFuel : Nat → lexState → lexer → List item
  | 0, _, _ => []
  | fuel+1, s, l =>
    match stepState s l with
    | (items, .halt t) => items ++ [t]
    | (items, .cont s' l') => items ++ runFuel fuel s' l'

/-- Rank used in the termination measure of the state machine: a state may
hand over to a lower-ranked state without consuming input (block or a
failed list/heading validation falls through to paragraph; `%footnotes` at
end of input falls through to the list scanner), but every transition that
does not lower the rank consumes at least one character. -/
def lexRank : lexState → Nat
  | .paragraph => 0
  | .unorderedList => 1
  | .orderedList => 1
  | .heading => 1
  | .keyword => 2
  | .block => 3

/-- Termination measure for `runFuel`. -/
def lexMeasure (s : lexState) (l : lexer) : Nat :=
  4 * (l.input.length - l.pos) + lexRank s

/-- The item sequence of the Go lexer on the given input. -/
def lexItems (input : String) : List item :=
  runFuel (4 * input.data.length + 4) .block ⟨input.data, 0, 0, 0⟩

/-! ## Parser (src/gml/parse.go, first revision) -/

/-- Go `time.Parse("2006-01-02", _)` result: a calendar date.  The zero
`time.Time` is January 1 of year 1. -/
structure goDate where
  year : Nat
  month : Nat
  day : Nat
deriving DecidableEq, Repr

/-- The zero `time.Time` value, as a `goDate`. -/
def zeroDate : goDate := ⟨1, 1, 1⟩

/-- Gregorian leap-year rule used by Go's `time` package. -/
def isLeapYear (y : Nat) : Bool :=
  y % 4 = 0 && (y % 100 ≠ 0 || y % 400 = 0)

/-- Days of the month, as Go's `daysIn`. -/
def daysInMonth (y m : Nat) : Nat :=
  if m = 2 then (if isLeapYear y then 29 else 28)
  else if m = 4 || m = 6 || m = 9 || m = 11 then 30
  else 31

/-- Digit list to number (most significant first; caller checks digits). -/
def digitsVal (cs : List Char) : Nat :=
  cs.foldl (fun n c => n * 10 + (c.toNat - 48)) 0

/-- Go `time.Parse("2006-01-02", s)`: exactly four year digits, a dash, two
month digits, a dash, two day digits, nothing else; month 1..12 and day
1..daysIn(month) or the parse fails. -/
def parseGoDate (s : String) : Option goDate :=
  match s.data with
  | [y1, y2, y3, y4, '-', m1, m2, '-', d1, d2] =>
    if [y1, y2, y3, y4].all Char.isDigit
        && [m1, m2].all Char.isDigit && [d1, d2].all Char.isDigit then
      let y := digitsVal [y1, y2, y3, y4]
      let m := digitsVal [m1, m2]
      let d := digitsVal [d1, d2]
      if 1 ≤ m ∧ m ≤ 12 then
        if 1 ≤ d ∧ d ≤ daysInMonth y m then some ⟨y, m, d⟩ else none
      else none
    else none
  | _ => none

/-- Go struct `metadata`; fields default to the Go zero values. -/
structure goMetadata where
  title : String := ""
  subtitle : String := ""
  date : goDate := zeroDate
  author : String := ""
deriving DecidableEq, Repr

/-- The block variants of parse.go (`heading`, `paragraph`, ...). -/
inductive goBlock where
  | heading (level : Nat) (text : String)
  | paragraph (text : String)
  | unorderedList (items : List String)
  | orderedList (items : List String)
  | blockquote (text : String)
  | pre (text : String)
  | html (text : String)
  | figure (args htmlLine caption : String)
  | footnotes (items : List String)
deriving DecidableEq, Repr

/-- Go struct `document`. -/
structure goDocument where
  metadata : goMetadata := {}
  content : List goBlock := []
deriving DecidableEq, Repr

/-- The zero `item` value, delivered by a receive on the closed channel. -/
def zeroItem : item := ⟨.error, "", 0⟩

/-- Go struct `parser`: the document being built, the items the lexer has
not yet delivered, the one-token buffer `token[0]` and `peekCount`. -/
structure parserState where
  doc : goDocument
  rest : List item
  tok : item
  peekCount : Nat
deriving DecidableEq, Repr

/-- Go `parser.next`. -/
def parserState.next (p : parserState) : item × parserState :=
  if p.peekCount > 0 then
    (p.tok, { p with peekCount := p.peekCount - 1 })
  else
    match p.rest with
    | [] => (zeroItem, { p with tok := zeroItem })
    | i :: r => (i, { p with tok := i, rest := r })

/-- Go `parser.backup`. -/
def parserState.backup (p : parserState) : parserState :=
  { p with peekCount := p.peekCount + 1 }

/-- Append a finished block to the document under construction. -/
def parserState.appendBlock (p : parserState) (b : goBlock) : parserState :=
  { p with doc := { p.doc with content := p.doc.content ++ [b] } }

/-- Go `item.String()` (`%.10q` truncates to ten runes before quoting). -/
def itemString (i : item) : String :=
  if i.typ = .eof then "EOF"
  else if i.typ = .error then i.val
  else if itemType.keyword.toNat < i.typ.toNat then "%" ++ i.val
  else if 10 < i.val.data.length then goQuote (String.mk (i.val.data.take 10)) ++ "..."
  else goQuote i.val

/-- The message of the error Go `parser.errorf` panics with.  (The Go code
feeds the composed text through `fmt.Errorf` a second time, which garbles
any `%` contained in the token text; no claim inspects the message, so the
intended composition is modelled.) -/
def parserErrorf (p : parserState) (msg : String) : String :=
  "gml: token: " ++ itemString p.tok ++ ":" ++ Nat.repr p.tok.pos ++ ": " ++ msg

/-- Go `parser.parseMetadata`; a `.error` result is the `errorf` panic. -/
def parseMetadataF (p : parserState) (tok : item) : Except String parserState :=
  if tok.val = "" then .ok p
  else match tok.typ with
    | .title =>
      .ok { p with doc := { p.doc with metadata := { p.doc.metadata with title := tok.val } } }
    | .subtitle =>
      .ok { p with doc := { p.doc with metadata := { p.doc.metadata with subtitle := tok.val } } }
    | .date =>
      match parseGoDate tok.val with
      | none => .error (parserErrorf p ("invalid date format: want: YYYY-MM-DD; got: " ++ tok.val))
      | some dt =>
        .ok { p with doc := { p.doc with metadata := { p.doc.metadata with date := dt } } }
    | .author =>
      .ok { p with doc := { p.doc with metadata := { p.doc.metadata with author := tok.val } } }
    | _ => .error (parserErrorf p "unrecognized metadata")

/-- Go `parser.parseHeading`; the default arm is the `errorf` panic. -/
def parseHeadingF (p : parserState) (tok : item) : Except String parserState :=
  match tok.typ with
  | .headingOne => .ok (p.appendBlock (.heading 1 tok.val))
  | .headingTwo => .ok (p.appendBlock (.heading 2 tok.val))
  | .headingThree => .ok (p.appendBlock (.heading 3 tok.val))
  | _ => .error (parserErrorf p "invalid heading level")

/-- Go `parser.collectItems` loop body with an explicit iteration bound. -/
def collectItemsF : Nat → parserState → itemType → List String × parserState
  | 0, p, _ => ([], p)
  | fuel+1, p, typ =>
    let (li, p1) := p.next
    if li.typ = typ then
      let (is, p2) := collectItemsF fuel p1 typ
      (li.val :: is, p2)
    else ([], p1.backup)

/-- Go `parser.collectItems`.  Every continuing iteration consumes one
buffered item, and the zero item handed out after exhaustion has kind
`Error`, which never equals the collected kinds (`UnorderedList`,
`OrderedList`, `Text`), so the bound is never exhausted. -/
def collectItems (p : parserState) (typ : itemType) : List String × parserState :=
  collectItemsF (p.peekCount + p.rest.length + 1) p typ

/-- Go `parser.parseUnorderedList`. -/
def parseUnorderedListF (p : parserState) : parserState :=
  let (is, p1) := collectItems p .unorderedList
  p1.appendBlock (.unorderedList is)

/-- Go `parser.parseOrderedList`. -/
def parseOrderedListF (p : parserState) : parserState :=
  let (is, p1) := collectItems p .orderedList
  p1.appendBlock (.orderedList is)

/-- Go `parser.parseFootnotes`. -/
def parseFootnotesF (p : parserState) : parserState :=
  let (is, p1) := collectItems p .unorderedList
  p1.appendBlock (.footnotes is)

/-- Go `parser.parseBlockquote`. -/
def parseBlockquoteF (p : parserState) : parserState :=
  let (is, p1) := collectItems p .text
  p1.appendBlock (.blockquote (String.intercalate "\n" is))

/-- Go `parser.parsePre`. -/
def parsePreF (p : parserState) : parserState :=
  let (is, p1) := collectItems p .text
  p1.appendBlock (.pre (String.intercalate "\n" is))

/-- Go `parser.parseHTML`. -/
def parseHTMLF (p : parserState) : parserState :=
  let (is, p1) := collectItems p .text
  p1.appendBlock (.html (String.intercalate "\n" is))

/-- Go `parser.parseFigure`: the first following item becomes the figure's
html line only when it is `Text` (it is consumed either way, with no
pushback); the second becomes the caption if `Text`, otherwise it is
pushed back. -/
def parseFigureF (p : parserState) (tok : item) : parserState :=
  let (t1, p1) := p.next
  let htmlLine := if t1.typ = .text then t1.val else ""
  let (t2, p2) := p1.next
  if t2.typ = .text then p2.appendBlock (.figure tok.val htmlLine t2.val)
  else (p2.backup).appendBlock (.figure tok.val htmlLine "")

/-- The body of the `Parse` dispatch switch; `.error` is an `errorf` panic;
the wildcard is the `default: fmt.Println("Unimplemented:", tok)` debug arm
(no state change). -/
def parseToken (p : parserState) (tok : item) : Except String parserState :=
  match tok.typ with
  | .title => parseMetadataF p tok
  | .subtitle => parseMetadataF p tok
  | .date => parseMetadataF p tok
  | .author => parseMetadataF p tok
  | .paragraph => .ok (p.appendBlock (.paragraph tok.val))
  | .headingOne => parseHeadingF p tok
  | .headingTwo => parseHeadingF p tok
  | .headingThree => parseHeadingF p tok
  | .unorderedList => .ok (parseUnorderedListF p.backup)
  | .orderedList => .ok (parseOrderedListF p.backup)
  | .footnotes => .ok (parseFootnotesF p)
  | .figure => .ok (parseFigureF p tok)
  | .blockquote => .ok (parseBlockquoteF p)
  | .pre => .ok (parsePreF p)
  | .html => .ok (parseHTMLF p)
  | _ => .ok p

/-- Outcome of running Go `Parse`:
`ok doc err` is the normal return (`return p.doc, nil`), `panicked` an
uncaught `parser.errorf` panic, and `diverges` the infinite loop Go enters
once the item stream is exhausted without an `EOF` (each receive on the
closed channel yields the zero item, whose kind `Error` is never `EOF`). -/
inductive parseResult where
  | ok (doc : goDocument) (err : Option String)
  | panicked (msg : String)
  | diverges
deriving DecidableEq, Repr

/-- True exactly on the `panicked` outcome. -/
def parseResult.isPanicked : parseResult → Bool
  | .panicked _ => true
  | _ => false

/-- The `Parse` dispatch loop with an explicit iteration bound (`none` means
the bound ran out; `Parse` passes a bound that covers every input). -/
def parseLoopF : Nat → parserState → Option parseResult
  | 0, _ => none
  | fuel+1, p =>
    if p.peekCount = 0 && p.rest.isEmpty then some .diverges
    else
      let (tok, p1) := p.next
      if tok.typ = .eof then some (.ok p1.doc none)
      else
        match parseToken p1 tok with
        | .error msg => some (.panicked msg)
        | .ok p2 => parseLoopF fuel p2

/-- Go `Parse`: lex the input and run the dispatch loop. -/
def Parse (s : String) : Option parseResult :=
  let items := lexItems s
  parseLoopF (2 * items.length + 4) ⟨{}, items, zeroItem, 0⟩

/-! ## Inline rewriter, slugify and the HTML emitters -/

/-- The RE2 character class `\s`, i.e. `[\t\n\f\r ]`. -/
def isRegexSpace (c : Char) : Bool :=
  c = '\t' || c = '\n' || c = '\x0c' || c = '\r' || c = ' '

/-- Whether a raw-URL match can start here: the literal `https://` followed
by at least one non-space character (the `[^\s]+` of the pattern). -/
def httpsUrlStart (cs : List Char) : Bool :=
  "https://".data.isPrefixOf cs &&
    match cs.drop 8 with
    | c :: _ => !isRegexSpace c
    | [] => false

/-- The replacement text `$1<a href="$2">$2</a>` without its `$1` part. -/
def urlAnchor (url : List Char) : List Char :=
  "<a href=\"".data ++ url ++ "\">".data ++ url ++ "</a>".data

/-- `regexp.MustCompile`(raw URL)`.ReplaceAllString`: replace each
leftmost-first match of `(\s?)(https://[^\s]+)`; the optional single
whitespace is captured and kept (`$1`), the URL (`$2`) is the maximal run
of non-space characters.  When a match starts at `c` itself, `c` is the
`'h'` of `https://` and hence no space, so the text after the match is
`rest.dropWhile` of the non-space predicate.  The first argument bounds the
number of characters examined; `replaceURLs` passes the list length, which
suffices because every step consumes at least one character. -/
def replaceURLsF : Nat → List Char → List Char
  | 0, _ => []
  | _+1, [] => []
  | fuel+1, c :: rest =>
    if isRegexSpace c && httpsUrlStart rest then
      c :: (urlAnchor (rest.takeWhile (fun x => !isRegexSpace x))
            ++ replaceURLsF fuel (rest.dropWhile (fun x => !isRegexSpace x)))
    else if httpsUrlStart (c :: rest) then
      urlAnchor ((c :: rest).takeWhile (fun x => !isRegexSpace x))
        ++ replaceURLsF fuel (rest.dropWhile (fun x => !isRegexSpace x))
    else c :: replaceURLsF fuel rest

/-- The raw-URL substitution of `textToHTML`. -/
def replaceURLs (cs : List Char) : List Char := replaceURLsF cs.length cs

/-- The footnote replacement `<a id="fnr.$1" href="#fn.$1"><sup>[$1]</sup></a>`. -/
def fnAnchor (ds : List Char) : List Char :=
  "<a id=\"fnr.".data ++ ds ++ "\" href=\"#fn.".data ++ ds
    ++ "\"><sup>[".data ++ ds ++ "]</sup></a>".data

/-- Whether a footnote-reference match `\[fn:(\d+)\]` continues here (the
`'['` was already seen): the literal `fn:`, at least one ASCII digit, and
the closing `']'`. -/
def fnRefMatch (rest : List Char) : Bool :=
  "fn:".data.isPrefixOf rest &&
    (let ds := (rest.drop 3).takeWhile Char.isDigit
     !ds.isEmpty && (rest.drop (3 + ds.length)).head? == some ']')

/-- `regexp.MustCompile`(footnote)`.ReplaceAllString`: replace each
leftmost match of `\[fn:(\d+)\]`.  The first argument bounds the number
of characters examined, as in `replaceURLsF`. -/
def replaceFootnotesF : Nat → List Char → List Char
  | 0, _ => []
  | _+1, [] => []
  | fuel+1, c :: rest =>
    if c = '[' && fnRefMatch rest then
      let ds := (rest.drop 3).takeWhile Char.isDigit
      fnAnchor ds ++ replaceFootnotesF fuel (rest.drop (3 + ds.length + 1))
    else c :: replaceFootnotesF fuel rest

/-- The footnote-reference substitution of `textToHTML`. -/
def replaceFootnotes (cs : List Char) : List Char := replaceFootnotesF cs.length cs

/-- Go `unicode.IsSpace` (the White_Space code points). -/
def goUnicodeIsSpace (c : Char) : Bool :=
  c = '\t' || c = '\n' || c = '\x0b' || c = '\x0c' || c = '\r' || c = ' '
    || c = '\x85' || c = '\xa0'
    || c = '\u1680' || ('\u2000' ≤ c && c ≤ '\u200a')
    || c = '\u2028' || c = '\u2029' || c = '\u202f' || c = '\u205f' || c = '\u3000'

/-- Go `strings.TrimSpace`: drop `unicode.IsSpace` characters from both
ends. -/
def goTrimSpace (cs : List Char) : List Char :=
  ((cs.dropWhile goUnicodeIsSpace).reverse.dropWhile goUnicodeIsSpace).reverse

/-- Go `textToHTML`: the raw-URL substitution, then the footnote-reference
substitution, then `strings.TrimSpace` on the result. -/
def textToHTML (s : String) : String :=
  String.mk (goTrimSpace (replaceFootnotes (replaceURLs s.data)))

/-- The character class `[\t\n\f\r ]` of slugify's `reSpace`. -/
def isSlugSpace (c : Char) : Bool :=
  c = '\t' || c = '\n' || c = '\x0c' || c = '\r' || c = ' '

/-- `reSpace.ReplaceAllString(slug, "-")`: each single-character match of
the class is replaced by a hyphen. -/
def spacesToDashes (cs : List Char) : List Char :=
  cs.map (fun c => if isSlugSpace c then '-' else c)

/-- `reDupDash.ReplaceAllString(slug, "-")`: each maximal run `-+` becomes
one hyphen.  The first argument bounds the number of characters examined,
as in `replaceURLsF`. -/
def collapseDashesF : Nat → List Char → List Char
  | 0, _ => []
  | _+1, [] => []
  | fuel+1, c :: rest =>
    if c = '-' then '-' :: collapseDashesF fuel (rest.dropWhile (fun x => x = '-'))
    else c :: collapseDashesF fuel rest

/-- The hyphen-run collapsing step of `slugify`. -/
def collapseDashes (cs : List Char) : List Char := collapseDashesF cs.length cs

/-- `reTag.ReplaceAllString(slug, "")`: delete each leftmost match of
`<[^>]+>` (a `'<'`, at least one non-`'>'`, then the first `'>'`).  The
first argument bounds the number of characters examined, as in
`replaceURLsF`. -/
def stripTagsF : Nat → List Char → List Char
  | 0, _ => []
  | _+1, [] => []
  | fuel+1, c :: rest =>
    if c = '<' then
      let inner := rest.takeWhile (fun x => x ≠ '>')
      match rest.drop inner.length with
      | '>' :: after =>
        if inner.isEmpty then c :: stripTagsF fuel rest
        else stripTagsF fuel after
      | _ => c :: stripTagsF fuel rest
    else c :: stripTagsF fuel rest

/-- The HTML-tag stripping step of `slugify`. -/
def stripTags (cs : List Char) : List Char := stripTagsF cs.length cs

/-- The characters kept by `reNonWord` (`[^0-9A-Za-z_-]` is removed). -/
def isWordChar (c : Char) : Bool :=
  c.isAlphanum || c = '_' || c = '-'

/-- Go `slugify`: trim, spaces to hyphens, collapse hyphen runs, strip
HTML tags, drop non-word characters, lower-case (the string is ASCII-only
at that point, so the ASCII case map agrees with Go). -/
def slugify (s : String) : String :=
  String.mk (((stripTags (collapseDashes (spacesToDashes (goTrimSpace s.data)))).filter
      isWordChar).map Char.toLower)

/-! ### HTML emitters -/

/-- Go `HTMLOptions`. -/
structure htmlOptions where
  minified : Bool := false
deriving DecidableEq, Repr

/-- Go `HTMLOptions.writeStringUnminified`: the string is written only in
non-minified mode. -/
def writeUnminified (opts : htmlOptions) (s : String) : String :=
  if !opts.minified then s else ""

/-- Two-digit zero-padded decimal. -/
def pad2 (n : Nat) : String :=
  if n < 10 then "0" ++ Nat.repr n else Nat.repr n

/-- Four-digit zero-padded decimal (the Go `2006` year verb). -/
def pad4 (n : Nat) : String :=
  if n < 10 then "000" ++ Nat.repr n
  else if n < 100 then "00" ++ Nat.repr n
  else if n < 1000 then "0" ++ Nat.repr n
  else Nat.repr n

/-- Go `time.Time.Format("2006-01-02")`. -/
def formatISO (d : goDate) : String :=
  pad4 d.year ++ "-" ++ pad2 d.month ++ "-" ++ pad2 d.day

/-- Go month names (months are validated to 1..12 at parse time). -/
def monthName : Nat → String
  | 1 => "January"
  | 2 => "February"
  | 3 => "March"
  | 4 => "April"
  | 5 => "May"
  | 6 => "June"
  | 7 => "July"
  | 8 => "August"
  | 9 => "September"
  | 10 => "October"
  | 11 => "November"
  | 12 => "December"
  | _ => ""

/-- Go `time.Time.Format("January 2, 2006")` (no leading zero on the day). -/
def formatLong (d : goDate) : String :=
  monthName d.month ++ " " ++ Nat.repr d.day ++ ", " ++ pad4 d.year

/-- Go `metadata.WriteHTML` (with non-nil options). -/
def metadataWriteHTML (m : goMetadata) (opts : htmlOptions) : String :=
  "<header>" ++ writeUnminified opts "\n"
    ++ (if m.title ≠ "" then
          writeUnminified opts "\t" ++ "<h1 class=\"title\">" ++ m.title ++ "</h1>"
            ++ writeUnminified opts "\n"
        else "")
    ++ (if m.subtitle ≠ "" then
          writeUnminified opts "\t" ++ "<p class=\"subtitle\">" ++ m.subtitle ++ "</p>"
            ++ writeUnminified opts "\n"
        else "")
    ++ (if m.date ≠ zeroDate then
          writeUnminified opts "\t" ++ "<p class=\"pubdate\">"
            ++ "<time datetime=\"" ++ formatISO m.date ++ "\">" ++ formatLong m.date
            ++ "</time>" ++ "</p>" ++ writeUnminified opts "\n"
        else "")
    ++ (if m.author ≠ "" then
          writeUnminified opts "\t" ++ "<p class=\"author\">" ++ m.author ++ "</p>"
            ++ writeUnminified opts "\n"
        else "")
    ++ "</header>"

/-- Go `heading.WriteHTML`: one level deeper than the stored level, with a
slug anchor. -/
def headingWriteHTML (level : Nat) (text : String) : String :=
  "<h" ++ Nat.repr (level + 1) ++ " id=\"" ++ slugify text ++ "\" class=\"heading\">"
    ++ textToHTML text ++ " <a class=\"heading-ref\" href=\"#" ++ slugify text ++ "\">#</a>"
    ++ "</h" ++ Nat.repr (level + 1) ++ ">"

/-- The `<li>` loop shared by `unorderedList.WriteHTML` and
`orderedList.WriteHTML`. -/
def listItemsHTML (opts : htmlOptions) : List String → String
  | [] => ""
  | t :: ts =>
    writeUnminified opts "\t" ++ "<li>" ++ textToHTML t ++ "</li>"
      ++ writeUnminified opts "\n" ++ listItemsHTML opts ts

/-- Go `unorderedList.WriteHTML`. -/
def unorderedListWriteHTML (items : List String) (opts : htmlOptions) : String :=
  "<ul>" ++ writeUnminified opts "\n" ++ listItemsHTML opts items ++ "</ul>"

/-- Go `orderedList.WriteHTML`. -/
def orderedListWriteHTML (items : List String) (opts : htmlOptions) : String :=
  "<ol>" ++ writeUnminified opts "\n" ++ listItemsHTML opts items ++ "</ol>"

/-- Go `paragraph.WriteHTML`. -/
def paragraphWriteHTML (text : String) : String :=
  "<p>" ++ textToHTML text ++ "</p>"

/-- Go `pre.WriteHTML` (no inline rewriting). -/
def preWriteHTML (text : String) : String :=
  "<pre>" ++ text ++ "</pre>"

/-- Go `html.WriteHTML` (verbatim pass-through). -/
def htmlWriteHTML (text : String) : String := text

/-- Go `blockquote.WriteHTML`. -/
def blockquoteWriteHTML (text : String) : String :=
  "<blockquote>" ++ textToHTML text ++ "</blockquote>"

/-- The split of the last `'"'`-delimited capture of `href="(.+)"`: the
greedy `(.+)` runs to the last quote, and needs at least one character. -/
def lastQuoteSplit (cs : List Char) : Option (List Char) :=
  let r := cs.reverse.dropWhile (fun c => c ≠ '"')
  if 2 ≤ r.length then some ((r.drop 1).reverse) else none

/-- `reHref.FindStringSubmatch(args)` of `figure.WriteHTML`: the capture of
the leftmost-first match of `href="(.+)"`, if any. -/
def findHrefArg : List Char → Option (List Char)
  | [] => none
  | c :: rest =>
    if "href=\"".data.isPrefixOf (c :: rest) then
      match lastQuoteSplit ((c :: rest).drop 6) with
      | some t => some t
      | none => findHrefArg rest
    else findHrefArg rest

/-- Go `figure.WriteHTML`. -/
def figureWriteHTML (args htmlLine caption : String) (opts : htmlOptions) : String :=
  "<figure>" ++ writeUnminified opts "\n"
    ++ (match findHrefArg args.data with
        | some h =>
          writeUnminified opts "\t" ++ "<a href=\"" ++ String.mk h ++ "\">"
            ++ writeUnminified opts "\n" ++ writeUnminified opts "\t"
        | none => "")
    ++ writeUnminified opts "\t" ++ htmlLine ++ writeUnminified opts "\n"
    ++ (match findHrefArg args.data with
        | some _ => writeUnminified opts "\t" ++ "</a>" ++ writeUnminified opts "\n"
        | none => "")
    ++ (if caption ≠ "" then
          writeUnminified opts "\t" ++ "<figcaption>" ++ caption ++ "</figcaption>"
            ++ writeUnminified opts "\n"
        else "")
    ++ "</figure>"

/-- The `<li id="fn.N">` loop of `footnotes.WriteHTML` (`N` is the one-based
position). -/
def footnoteItemsHTML (opts : htmlOptions) : Nat → List String → String
  | _, [] => ""
  | i, t :: ts =>
    writeUnminified opts "\t\t"
      ++ "<li id=\"fn." ++ Nat.repr (i + 1) ++ "\">" ++ textToHTML t
      ++ " <a href=\"#fnr." ++ Nat.repr (i + 1) ++ "\">⮐</a></li>"
      ++ writeUnminified opts "\n" ++ footnoteItemsHTML opts (i + 1) ts

/-- Go `footnotes.WriteHTML`. -/
def footnotesWriteHTML (items : List String) (opts : htmlOptions) : String :=
  "<footer>" ++ writeUnminified opts "\n"
    ++ writeUnminified opts "\t" ++ "<ol>" ++ writeUnminified opts "\n"
    ++ footnoteItemsHTML opts 0 items
    ++ writeUnminified opts "\t" ++ "</ol>" ++ writeUnminified opts "\n"
    ++ "</footer>"

/-- Dispatch of `block.WriteHTML` over the block variants. -/
def blockWriteHTML (b : goBlock) (opts : htmlOptions) : String :=
  match b with
  | .heading level text => headingWriteHTML level text
  | .paragraph text => paragraphWriteHTML text
  | .unorderedList items => unorderedListWriteHTML items opts
  | .orderedList items => orderedListWriteHTML items opts
  | .blockquote text => blockquoteWriteHTML text
  | .pre text => preWriteHTML text
  | .html text => htmlWriteHTML text
  | .figure args htmlLine caption => figureWriteHTML args htmlLine caption opts
  | .footnotes items => footnotesWriteHTML items opts

/-- The per-block loop of Go `document.HTML` (each block is followed by an
unminified newline). -/
def contentHTML (opts : htmlOptions) : List goBlock → String
  | [] => ""
  | b :: bs => blockWriteHTML b opts ++ writeUnminified opts "\n" ++ contentHTML opts bs

/-- Go `document.HTML` (a nil options argument means the default). -/
def docHTML (d : goDocument) (opts : htmlOptions) : String :=
  "<article>" ++ writeUnminified opts "\n"
    ++ metadataWriteHTML d.metadata opts ++ writeUnminified opts "\n"
    ++ contentHTML opts d.content
    ++ "</article>"

/-- Characters whose HTML escaping is at issue in the claims. -/
def isHTMLSpecial (c : Char) : Bool :=
  c = '<' || c = '>' || c = '&' || c = '"'

/-- Character occurrence in a string. -/
def occursIn (c : Char) (s : String) : Prop := c ∈ s.data

instance (c : Char) (s : String) : Decidable (occursIn c s) := by
  unfold occursIn
  infer_instance

/-- The textual payloads the no-escaping claim ranges over: heading text,
paragraph text, list items, blockquote text and figure captions. -/
def blockTextHas (c : Char) : goBlock → Prop
  | .heading _ text => c ∈ text.data
  | .paragraph text => c ∈ text.data
  | .unorderedList items => ∃ t ∈ items, c ∈ t.data
  | .orderedList items => ∃ t ∈ items, c ∈ t.data
  | .blockquote text => c ∈ text.data
  | .figure _ _ caption => c ∈ caption.data
  | _ => False

/-- Every heading block stored in a document has level 1, 2 or 3. -/
def headingLevelsOK (d : goDocument) : Prop :=
  ∀ b ∈ d.content, ∀ lvl txt, b = goBlock.heading lvl txt → 1 ≤ lvl ∧ lvl ≤ 3

/-- The lexer-field relation the termination argument tracks: input text
preserved, position monotone and within bounds. -/
def scanOK (l l2 : lexer) : Prop :=
  l2.input = l.input ∧ l.pos ≤ l2.pos ∧ l2.pos ≤ max l.pos l.input.length

/-- What one full state function guarantees: emitted items are not
terminal, a halt carries a terminal item, and a continuation keeps the
input, stays in bounds and strictly decreases the termination measure. -/
def stepOK (s : lexState) (l : lexer) (out : List item × stepRes) : Prop :=
  (∀ i ∈ out.1, isTerminalItem i = false) ∧
  (∀ t, out.2 = .halt t → isTerminalItem t = true) ∧
  (∀ s2 l2, out.2 = .cont s2 l2 →
    l2.input = l.input ∧ l2.pos ≤ l.input.length ∧ lexMeasure s2 l2 < lexMeasure s l)

/-- Guarantee of the keyword-body loop: like `stepOK`, but every
continuation has consumed at least one character. -/
def bodyOK (l : lexer) (out : List item × stepRes) : Prop :=
  (∀ i ∈ out.1, isTerminalItem i = false) ∧
  (∀ t, out.2 = .halt t → isTerminalItem t = true) ∧
  (∀ s2 l2, out.2 = .cont s2 l2 →
    l2.input = l.input ∧ l2.pos ≤ l.input.length ∧ l.pos < l2.pos)

/-- Whether a string contains two consecutive hyphens. -/
def hasDoubleDash (s : String) : Bool :=
  decide ("--".data <:+: s.data)

/-! ## Helper lemmas -/

theorem char_eq_iff_toNat {c d : Char} : c = d ↔ c.toNat = d.toNat :=
  ⟨fun h => h ▸ rfl, fun h => Char.ext (UInt32.ext h)⟩

theorem toNat_ofNat_valid (n : Nat) (h : n < 55296) : (Char.ofNat n).toNat = n := by
  rw [Char.ofNat, dif_pos (Or.inl h)]
  rfl

theorem toLower_toNat_upper (c : Char) (h1 : 65 ≤ c.toNat) (h2 : c.toNat ≤ 90) :
    (Char.toLower c).toNat = c.toNat + 32 := by
  unfold Char.toLower
  rw [if_pos ⟨h1, h2⟩]
  exact toNat_ofNat_valid _ (by omega)

theorem toLower_eq_self (c : Char) (h : ¬(65 ≤ c.toNat ∧ c.toNat ≤ 90)) :
    Char.toLower c = c := by
  unfold Char.toLower
  rw [if_neg h]

theorem head?_dropWhile_false {p : Char → Bool} {l : List Char} {c : Char}
    (h : (l.dropWhile p).head? = some c) : p c = false := by
  induction l with
  | nil => simp [List.dropWhile] at h
  | cons a t ih =>
    by_cases hp : p a
    · rw [List.dropWhile_cons_of_pos hp] at h
      exact ih h
    · rw [List.dropWhile_cons_of_neg hp] at h
      simp at h
      rw [← h]
      simp [hp]

theorem getLast?_of_suffix {l1 l2 : List Char} (h : l1 <:+ l2) {c : Char}
    (hc : l1.getLast? = some c) : l2.getLast? = some c := by
  obtain ⟨pre, rfl⟩ := h
  rcases l1 with _ | ⟨a, t⟩
  · simp at hc
  · rw [List.getLast?_append_cons]
    exact hc

theorem goTrimSpace_head {l : List Char} {c : Char}
    (h : (goTrimSpace l).head? = some c) : goUnicodeIsSpace c = false := by
  unfold goTrimSpace at h
  rw [List.head?_reverse] at h
  have h2 : ((l.dropWhile goUnicodeIsSpace).reverse).getLast? = some c :=
    getLast?_of_suffix (List.dropWhile_suffix _) h
  rw [List.getLast?_reverse] at h2
  exact head?_dropWhile_false h2

theorem goTrimSpace_last {l : List Char} {c : Char}
    (h : (goTrimSpace l).getLast? = some c) : goUnicodeIsSpace c = false := by
  unfold goTrimSpace at h
  rw [List.getLast?_reverse] at h
  exact head?_dropWhile_false h

theorem uint32_toBitVec_toNat (u : UInt32) : u.toBitVec.toNat = u.toNat := rfl

theorem char_val_toNat (c : Char) : c.val.toNat = c.toNat := rfl

theorem isWordChar_toNat {c : Char} (h : isWordChar c = true) :
    c.toNat = 45 ∨ c.toNat = 95 ∨ (48 ≤ c.toNat ∧ c.toNat ≤ 57)
    ∨ (65 ≤ c.toNat ∧ c.toNat ≤ 90) ∨ (97 ≤ c.toNat ∧ c.toNat ≤ 122) := by
  simp [isWordChar, Char.isAlphanum, Char.isAlpha, Char.isUpper, Char.isLower,
    Char.isDigit, UInt32.le_def, BitVec.le_def, uint32_toBitVec_toNat,
    char_val_toNat, char_eq_iff_toNat] at h
  omega

/-- The characters a slug can contain: hyphen, underscore, ASCII digits and
lower-case letters.  Such characters are word characters, are fixed by the
case map, are no kind of whitespace, and are not `'<'`. -/
theorem slug_range_spec {c : Char}
    (hc : c.toNat = 45 ∨ c.toNat = 95 ∨ (48 ≤ c.toNat ∧ c.toNat ≤ 57)
      ∨ (97 ≤ c.toNat ∧ c.toNat ≤ 122)) :
    isWordChar c = true ∧ Char.toLower c = c ∧ goUnicodeIsSpace c = false
      ∧ isSlugSpace c = false ∧ c ≠ '<' := by
  refine ⟨?_, ?_, ?_, ?_, ?_⟩
  · simp [isWordChar, Char.isAlphanum, Char.isAlpha, Char.isUpper, Char.isLower,
      Char.isDigit, UInt32.le_def, BitVec.le_def, uint32_toBitVec_toNat,
      char_val_toNat, char_eq_iff_toNat]
    omega
  · exact toLower_eq_self c (by omega)
  · by_contra hx
    simp [goUnicodeIsSpace, char_eq_iff_toNat, Char.le_def, UInt32.le_def,
      BitVec.le_def, uint32_toBitVec_toNat, char_val_toNat] at hx
    omega
  · by_contra hx
    simp [isSlugSpace, char_eq_iff_toNat] at hx
    omega
  · intro hx
    rw [char_eq_iff_toNat] at hx
    have h60 : ('<').toNat = 60 := rfl
    omega

theorem wordChar_toLower_range {c : Char} (h : isWordChar c = true) :
    (Char.toLower c).toNat = 45 ∨ (Char.toLower c).toNat = 95
    ∨ (48 ≤ (Char.toLower c).toNat ∧ (Char.toLower c).toNat ≤ 57)
    ∨ (97 ≤ (Char.toLower c).toNat ∧ (Char.toLower c).toNat ≤ 122) := by
  rcases isWordChar_toNat h with h1 | h1 | h1 | h1 | h1
  · rw [toLower_eq_self c (by omega)]
    omega
  · rw [toLower_eq_self c (by omega)]
    omega
  · rw [toLower_eq_self c (by omega)]
    omega
  · have := toLower_toNat_upper c (by omega) (by omega)
    omega
  · rw [toLower_eq_self c (by omega)]
    omega

theorem dropWhile_eq_self_of {p : Char → Bool} {l : List Char}
    (h : ∀ c ∈ l, p c = false) : l.dropWhile p = l := by
  cases l with
  | nil => rfl
  | cons a t => exact List.dropWhile_cons_of_neg (by simp [h a (by simp)])

theorem map_eq_self_of {f : Char → Char} {l : List Char}
    (h : ∀ c ∈ l, f c = c) : l.map f = l := by
  induction l with
  | nil => rfl
  | cons a t ih =>
    simp only [List.map_cons, h a (by simp), ih (fun c hc => h c (by simp [hc]))]

theorem goTrimSpace_eq_self {l : List Char}
    (h : ∀ c ∈ l, goUnicodeIsSpace c = false) : goTrimSpace l = l := by
  unfold goTrimSpace
  rw [dropWhile_eq_self_of h, dropWhile_eq_self_of (fun c hc => h c (by simpa using hc)),
    List.reverse_reverse]

theorem spacesToDashes_eq_self {l : List Char}
    (h : ∀ c ∈ l, isSlugSpace c = false) : spacesToDashes l = l := by
  unfold spacesToDashes
  exact map_eq_self_of (fun c hc => by rw [if_neg (by simp [h c hc])])

theorem stripTagsF_eq_self {fuel : Nat} {l : List Char} (hf : l.length ≤ fuel)
    (h : ∀ c ∈ l, c ≠ '<') : stripTagsF fuel l = l := by
  induction fuel generalizing l with
  | zero =>
    rcases l with _ | ⟨a, t⟩
    · rfl
    · simp at hf
  | succ fuel ih =>
    rcases l with _ | ⟨a, t⟩
    · rfl
    · rw [stripTagsF, if_neg (by simp [h a (by simp)]),
        ih (by simpa using Nat.le_of_succ_le_succ hf) (fun c hc => h c (by simp [hc]))]

theorem stripTags_eq_self {l : List Char} (h : ∀ c ∈ l, c ≠ '<') :
    stripTags l = l :=
  stripTagsF_eq_self (Nat.le_refl _) h

theorem collapseDashesF_mem {fuel : Nat} {l : List Char} {c : Char}
    (h : c ∈ collapseDashesF fuel l) : c = '-' ∨ c ∈ l := by
  induction fuel generalizing l with
  | zero => simp [collapseDashesF] at h
  | succ fuel ih =>
    rcases l with _ | ⟨a, t⟩
    · simp [collapseDashesF] at h
    · rw [collapseDashesF] at h
      by_cases ha : a = '-'
      · rw [if_pos ha] at h
        rcases List.mem_cons.1 h with h | h
        · exact Or.inl h
        · rcases ih h with h2 | h2
          · exact Or.inl h2
          · have : c ∈ t := (List.dropWhile_sublist _).subset h2
            exact Or.inr (List.mem_cons_of_mem a this)
      · rw [if_neg ha] at h
        rcases List.mem_cons.1 h with h | h
        · exact Or.inr (h ▸ List.mem_cons_self a t)
        · rcases ih h with h2 | h2
          · exact Or.inl h2
          · exact Or.inr (List.mem_cons_of_mem a h2)

theorem collapseDashes_mem {l : List Char} {c : Char}
    (h : c ∈ collapseDashes l) : c = '-' ∨ c ∈ l :=
  collapseDashesF_mem h

theorem collapseDashesF_eq_self {fuel : Nat} {l : List Char} (hf : l.length ≤ fuel)
    (h : ¬ ['-', '-'] <:+: l) : collapseDashesF fuel l = l := by
  induction fuel generalizing l with
  | zero =>
    rcases l with _ | ⟨a, t⟩
    · rfl
    · simp at hf
  | succ fuel ih =>
    rcases l with _ | ⟨a, t⟩
    · rfl
    · have hlen : t.length ≤ fuel := by simpa using Nat.le_of_succ_le_succ hf
      have hrest : ¬ ['-', '-'] <:+: t := by
        intro hx
        obtain ⟨s1, s2, hs⟩ := hx
        exact h ⟨a :: s1, s2, by simp [← hs]⟩
      rw [collapseDashesF]
      by_cases ha : a = '-'
      · subst ha
        have hdrop : t.dropWhile (fun x => x = '-') = t := by
          rcases t with _ | ⟨b, u⟩
          · rfl
          · have hb : b ≠ '-' := by
              intro hb
              subst hb
              exact h ⟨[], u, by simp⟩
            exact List.dropWhile_cons_of_neg (by simp [hb])
        rw [if_pos rfl, hdrop, ih hlen hrest]
      · rw [if_neg ha, ih hlen hrest]

theorem collapseDashes_eq_self {l : List Char} (h : ¬ ['-', '-'] <:+: l) :
    collapseDashes l = l :=
  collapseDashesF_eq_self (Nat.le_refl _) h

/-- Every character of a slug is a hyphen, an underscore, an ASCII digit or
a lower-case ASCII letter. -/
theorem slugify_data_range {s : String} {c : Char} (h : c ∈ (slugify s).data) :
    c.toNat = 45 ∨ c.toNat = 95 ∨ (48 ≤ c.toNat ∧ c.toNat ≤ 57)
    ∨ (97 ≤ c.toNat ∧ c.toNat ≤ 122) := by
  unfold slugify at h
  simp only [String.data] at h
  rcases List.mem_map.1 h with ⟨c0, hc0, rfl⟩
  exact wordChar_toLower_range (List.of_mem_filter hc0)

theorem string_mk_data (u : String) : String.mk u.data = u := by
  rcases u with ⟨d⟩
  rfl

/-- Running `slugify` on a string made of slug characters only collapses
hyphen runs: every other pass of the pipeline leaves it unchanged. -/
theorem slugify_of_slug_chars {t : String}
    (hrange : ∀ c ∈ t.data, c.toNat = 45 ∨ c.toNat = 95
      ∨ (48 ≤ c.toNat ∧ c.toNat ≤ 57) ∨ (97 ≤ c.toNat ∧ c.toNat ≤ 122)) :
    slugify t = String.mk (collapseDashes t.data) := by
  have hcoll : ∀ c ∈ collapseDashes t.data, c.toNat = 45 ∨ c.toNat = 95
      ∨ (48 ≤ c.toNat ∧ c.toNat ≤ 57) ∨ (97 ≤ c.toNat ∧ c.toNat ≤ 122) := by
    intro c hc
    rcases collapseDashes_mem hc with h | h
    · subst h
      left
      decide
    · exact hrange c h
  unfold slugify
  rw [goTrimSpace_eq_self (fun c hc => (slug_range_spec (hrange c hc)).2.2.1),
    spacesToDashes_eq_self (fun c hc => (slug_range_spec (hrange c hc)).2.2.2.1),
    stripTags_eq_self (fun c hc => (slug_range_spec (hcoll c hc)).2.2.2.2),
    List.filter_eq_self.mpr (fun c hc => (slug_range_spec (hcoll c hc)).1),
    map_eq_self_of (fun c hc => (slug_range_spec (hcoll c hc)).2.1)]

/-! ## Claims -/

/-- C7: an almost-list line falls through to paragraph mode without losing
input: `-not a list` lexes to a single Paragraph item with that exact
value, and so does `1.23 not a list`. -/
theorem C7_almost_list_is_paragraph :
    lexItems "-not a list" = [⟨.paragraph, "-not a list", 0⟩, ⟨.eof, "", 11⟩]
    ∧ lexItems "1.23 not a list" = [⟨.paragraph, "1.23 not a list", 0⟩, ⟨.eof, "", 15⟩] := by
  constructor
  · decide
  · decide

/-- C5 (counterexample): on `"%footnotes\n - x"` the first non-space
character after the consumed newline is `'-'`, yet the lexer emits the
error item instead of continuing with the unordered-list scanner — the
check looks at the character immediately after the newline, not at the
next non-space character. -/
theorem C5_counterexample :
    ((("%footnotes\n - x".data.drop 11).dropWhile isSpaceChar).head? = some '-')
    ∧ lexItems "%footnotes\n - x"
      = [⟨.footnotes, "", 10⟩,
         ⟨.error, "footnotes must be given as an unordered list", 10⟩] := by
  constructor
  · decide
  · decide

/-- C5 (amended): after the `%footnotes` directive the lexer consumes the
following newline; if the character immediately after that newline is not
`'-'` it emits the error `footnotes must be given as an unordered list`,
and if it is `'-'` it consumes it and hands over to the unordered-list
scanner.  (The claim's "next non-space character" is refuted by
`C5_counterexample`: the code inspects the immediate next character.) -/
theorem C5_footnotes_dispatch (l : lexer) (hn : l.input[l.pos]? = some '\n') :
    (l.input[l.pos + 1]? ≠ some '-' →
      footnotesDispatch l
        = ([], .halt ⟨.error, "footnotes must be given as an unordered list", l.start⟩))
    ∧ (l.input[l.pos + 1]? = some '-' →
      footnotesDispatch l = ([], .cont .unorderedList ⟨l.input, l.pos + 2, l.pos + 2, 1⟩)) := by
  have hlt : l.pos < l.input.length := by
    by_contra hx
    rw [List.getElem?_eq_none (by omega)] at hn
    exact Option.noConfusion hn
  have hget : l.input[l.pos] = '\n' := by
    rw [List.getElem?_eq_getElem hlt] at hn
    exact Option.some.inj hn
  constructor
  · intro hne
    by_cases hlt2 : l.pos + 1 < l.input.length
    · have hc2 : l.input[l.pos + 1] ≠ '-' := by
        rw [List.getElem?_eq_getElem hlt2] at hne
        intro hx
        exact hne (by rw [hx])
      simp [footnotesDispatch, lexer.peek, lexer.next, lexer.backup, lexer.ignore,
        lexer.errorItem, hlt, hlt2, hget, hc2, isNewlineO, isNewlineChar]
    · simp [footnotesDispatch, lexer.peek, lexer.next, lexer.backup, lexer.ignore,
        lexer.errorItem, hlt, hlt2, hget, isNewlineO, isNewlineChar]
  · intro heq
    have hlt2 : l.pos + 1 < l.input.length := by
      by_contra hx
      rw [List.getElem?_eq_none (by omega)] at heq
      exact Option.noConfusion heq
    have hc2 : l.input[l.pos + 1] = '-' := by
      rw [List.getElem?_eq_getElem hlt2] at heq
      exact Option.some.inj heq
    simp [footnotesDispatch, lexer.peek, lexer.next, lexer.backup, lexer.ignore,
      hlt, hlt2, hget, hc2, isNewlineO, isNewlineChar]

/-- Witness for `C5_footnotes_dispatch` at the state reached right after the
lexer emitted the `Footnotes` item for `"%footnotes\n- x"`. -/
theorem C5_footnotes_dispatch_witness :
    footnotesDispatch ⟨"%footnotes\n- x".data, 10, 10, 1⟩
      = ([], .cont .unorderedList ⟨"%footnotes\n- x".data, 12, 12, 1⟩) :=
  (C5_footnotes_dispatch ⟨"%footnotes\n- x".data, 10, 10, 1⟩ (by decide)).2 (by decide)

/-- C3 (counterexample): the inline rewriter removes leading whitespace as
well — on `" a"`, which neither substitution touches, the result is `"a"`,
not `" a"`. -/
theorem C3_counterexample :
    replaceURLs " a".data = " a".data
    ∧ replaceFootnotes " a".data = " a".data
    ∧ textToHTML " a" = "a"
    ∧ textToHTML " a" ≠ " a" := by
  refine ⟨by decide, by decide, by decide, by decide⟩

/-- C3 (amended): `textToHTML` applies the raw-URL substitution, then the
footnote-reference substitution, and then trims whitespace from both ends
of the result: the result never begins or ends with a whitespace
character. -/
theorem C3_textToHTML_shape (s : String) :
    textToHTML s = String.mk (goTrimSpace (replaceFootnotes (replaceURLs s.data)))
    ∧ (∀ c, (textToHTML s).data.head? = some c → goUnicodeIsSpace c = false)
    ∧ (∀ c, (textToHTML s).data.getLast? = some c → goUnicodeIsSpace c = false) := by
  refine ⟨rfl, ?_, ?_⟩
  · intro c hc
    exact goTrimSpace_head (by simpa [textToHTML] using hc)
  · intro c hc
    exact goTrimSpace_last (by simpa [textToHTML] using hc)

/-- Witness for `C3_textToHTML_shape`: on `" x y "` the rewriter returns
`"x y"`, whose first character `'x'` is not whitespace. -/
theorem C3_textToHTML_shape_witness : goUnicodeIsSpace 'x' = false :=
  (C3_textToHTML_shape " x y ").2.1 'x' (by decide)

/-- C2 (counterexample): slugify is not idempotent.  On `"a-.-b"` the
hyphen collapse runs before the dot is removed, so the slug is `"a--b"`;
slugifying again collapses the hyphens to `"a-b"`. -/
theorem C2_counterexample :
    slugify "a-.-b" = "a--b"
    ∧ slugify (slugify "a-.-b") = "a-b"
    ∧ slugify (slugify "a-.-b") ≠ slugify "a-.-b" := by
  refine ⟨by decide, by decide, by decide⟩

/-- C2 (amended): slugify is idempotent up to hyphen collapsing: a second
application only collapses hyphen runs of the slug, and is the identity
exactly when the slug has no two consecutive hyphens. -/
theorem C2_slugify_idempotent_up_to_dashes (s : String) :
    slugify (slugify s) = String.mk (collapseDashes (slugify s).data)
    ∧ (hasDoubleDash (slugify s) = false → slugify (slugify s) = slugify s) := by
  have h1 : slugify (slugify s) = String.mk (collapseDashes (slugify s).data) :=
    slugify_of_slug_chars (fun c hc => slugify_data_range hc)
  refine ⟨h1, fun hd => ?_⟩
  have hni : ¬ ['-', '-'] <:+: (slugify s).data := by
    intro hx
    rw [hasDoubleDash, decide_eq_false_iff_not] at hd
    exact hd (by simpa using hx)
  rw [h1, collapseDashes_eq_self hni, string_mk_data]

/-- Witness for `C2_slugify_idempotent_up_to_dashes`: `"Hello World"`
slugifies to `"hello-world"`, which has no double hyphen, so slugify is
idempotent there. -/
theorem C2_slugify_idempotent_witness :
    slugify (slugify "Hello World") = slugify "Hello World" :=
  (C2_slugify_idempotent_up_to_dashes "Hello World").2 (by decide)

/-- C1 (code behavior at the failing inputs): on an input with a lexer
error the lexer does emit the Error item, but `Parse` neither returns it
nor any document — it loops forever on the zero item of the closed
channel.  On an invalid `%date` value `Parse` panics via `parser.errorf`
instead of returning the error. -/
theorem C1_parse_error_behavior :
    lexItems "%oops\n" = [⟨.error, "unrecognized keyword: \"%oops\"", 0⟩]
    ∧ Parse "%oops\n" = some .diverges
    ∧ parseGoDate "2022-13-01" = none
    ∧ (Parse "%date 2022-13-01").elim false parseResult.isPanicked = true := by
  refine ⟨by decide, by decide, by decide, by decide⟩

theorem parseLoopF_ok_err_none {fuel : Nat} {p : parserState} {d : goDocument}
    {e : Option String} (h : parseLoopF fuel p = some (.ok d e)) : e = none := by
  induction fuel generalizing p with
  | zero => simp [parseLoopF] at h
  | succ fuel ih =>
    rw [parseLoopF] at h
    by_cases h1 : p.peekCount = 0 && p.rest.isEmpty
    · rw [if_pos h1] at h
      exact absurd (Option.some.inj h) (by simp)
    · rw [if_neg h1] at h
      rcases hnext : p.next with ⟨tok, p1⟩
      rw [hnext] at h
      dsimp only [] at h
      by_cases h2 : tok.typ = .eof
      · rw [if_pos h2] at h
        have := Option.some.inj h
        rcases this with ⟨⟩
        rfl
      · rw [if_neg h2] at h
        rcases hpt : parseToken p1 tok with msg | p2
        · rw [hpt] at h
          exact absurd (Option.some.inj h) (by simp)
        · rw [hpt] at h
          exact ih h

/-- C8: whenever `Parse` returns normally, its error result is `nil`: the
only normal return of the dispatch loop is `return p.doc, nil`. -/
theorem C8_parse_error_always_nil (s : String) (d : goDocument) (e : Option String)
    (h : Parse s = some (.ok d e)) : e = none := by
  unfold Parse at h
  exact parseLoopF_ok_err_none h

/-- Witness for `C8_parse_error_always_nil` at the empty input. -/
theorem C8_parse_error_always_nil_witness :
    (none : Option String) = none ∧ Parse "" = some (.ok {} none) :=
  ⟨C8_parse_error_always_nil "" {} none (by decide), by decide⟩

/-- C9: `parseFigure` consumes the item after the `Figure` sentinel without
pushing it back even when it is not `Text`; only the caption slot pushes a
non-`Text` item back.  Concretely, on `"%figure\n\n* Head"` the lexer emits
the heading item but the parsed document contains only the figure: the
heading block after the empty `%figure` body is silently dropped. -/
theorem C9_parseFigure_drops_following_item :
    (∀ (d : goDocument) (t0 i1 i2 : item) (r : List item) (tok : item),
      i1.typ ≠ .text →
      (i2.typ ≠ .text →
        parseFigureF ⟨d, i1 :: i2 :: r, t0, 0⟩ tok
          = ⟨{ d with content := d.content ++ [.figure tok.val "" ""] }, r, i2, 1⟩)
      ∧ (i2.typ = .text →
        parseFigureF ⟨d, i1 :: i2 :: r, t0, 0⟩ tok
          = ⟨{ d with content := d.content ++ [.figure tok.val "" i2.val] }, r, i2, 0⟩))
    ∧ lexItems "%figure\n\n* Head"
        = [⟨.figure, "", 7⟩, ⟨.headingOne, "Head", 11⟩, ⟨.eof, "", 15⟩]
    ∧ Parse "%figure\n\n* Head" = some (.ok ⟨{}, [.figure "" "" ""]⟩ none) := by
  refine ⟨?_, by decide, by decide⟩
  intro d t0 i1 i2 r tok h1
  constructor
  · intro h2
    simp [parseFigureF, parserState.next, parserState.backup, parserState.appendBlock,
      h1, h2]
  · intro h2
    simp [parseFigureF, parserState.next, parserState.backup, parserState.appendBlock,
      h1, h2]

/-- Witness for `C9_parseFigure_drops_following_item`: the heading item
after the figure sentinel of `"%figure\n\n* Head"` is consumed and
dropped, and the following `EOF` is pushed back. -/
theorem C9_parseFigure_drops_following_item_witness :
    parseFigureF ⟨{}, [⟨.headingOne, "Head", 11⟩, ⟨.eof, "", 15⟩], ⟨.figure, "", 7⟩, 0⟩
        ⟨.figure, "", 7⟩
      = ⟨⟨{}, [.figure "" "" ""]⟩, [], ⟨.eof, "", 15⟩, 1⟩ :=
  ((C9_parseFigure_drops_following_item.1 {} ⟨.figure, "", 7⟩ ⟨.headingOne, "Head", 11⟩
      ⟨.eof, "", 15⟩ [] ⟨.figure, "", 7⟩ (by decide)).1 (by decide)).trans (by decide)

theorem string_data_append (a b : String) : (a ++ b).data = a.data ++ b.data := rfl

theorem parserState_next_doc (p : parserState) : (p.next).2.doc = p.doc := by
  by_cases h : p.peekCount > 0
  · simp [parserState.next, h]
  · cases hr : p.rest <;> simp [parserState.next, h, hr]

theorem collectItemsF_doc (fuel : Nat) (p : parserState) (typ : itemType) :
    (collectItemsF fuel p typ).2.doc = p.doc := by
  induction fuel generalizing p with
  | zero => rfl
  | succ fuel ih =>
    rw [collectItemsF]
    rcases hnext : p.next with ⟨li, p1⟩
    dsimp only []
    by_cases ht : li.typ = typ
    · rw [if_pos ht]
      have h1 : p1.doc = p.doc := by
        have := parserState_next_doc p
        rw [hnext] at this
        exact this
      dsimp only []
      rw [ih p1, h1]
    · rw [if_neg ht]
      have := parserState_next_doc p
      rw [hnext] at this
      exact this

theorem headingLevelsOK_append {d : goDocument} {b : goBlock}
    (hd : headingLevelsOK d)
    (hb : ∀ lvl txt, b = goBlock.heading lvl txt → 1 ≤ lvl ∧ lvl ≤ 3) :
    headingLevelsOK { d with content := d.content ++ [b] } := by
  intro x hx lvl txt hxb
  rcases List.mem_append.1 hx with hx | hx
  · exact hd x hx lvl txt hxb
  · rw [List.mem_singleton.1 hx] at hxb
    exact hb lvl txt hxb

theorem headingLevelsOK_content_eq {d1 d2 : goDocument}
    (h : d2.content = d1.content) (hd : headingLevelsOK d1) : headingLevelsOK d2 := by
  intro x hx
  exact hd x (h ▸ hx)

theorem parseMetadataF_ok_content {p : parserState} {tok : item} {p' : parserState}
    (h : parseMetadataF p tok = .ok p') : p'.doc.content = p.doc.content := by
  unfold parseMetadataF at h
  split_ifs at h
  · injection h with h
    subst h
    rfl
  · split at h
    · injection h with h
      subst h
      rfl
    · injection h with h
      subst h
      rfl
    · split at h
      · exact absurd h (by simp)
      · injection h with h
        subst h
        rfl
    · injection h with h
      subst h
      rfl
    · exact absurd h (by simp)

theorem parseFigureF_content (p : parserState) (tok : item) :
    ∃ hl cap, (parseFigureF p tok).doc.content
      = p.doc.content ++ [goBlock.figure tok.val hl cap] := by
  unfold parseFigureF
  rcases hn1 : p.next with ⟨t1, p1⟩
  dsimp only []
  rcases hn2 : p1.next with ⟨t2, p2⟩
  dsimp only []
  have hd1 : p1.doc = p.doc := by
    have := parserState_next_doc p
    rw [hn1] at this
    exact this
  have hd2 : p2.doc = p.doc := by
    have := parserState_next_doc p1
    rw [hn2] at this
    rw [this, hd1]
  by_cases ht : t2.typ = .text
  · rw [if_pos ht]
    exact ⟨if t1.typ = .text then t1.val else "", t2.val,
      by simp [parserState.appendBlock, hd2]⟩
  · rw [if_neg ht]
    exact ⟨if t1.typ = .text then t1.val else "", "",
      by simp [parserState.appendBlock, parserState.backup, hd2]⟩

theorem collect_append_headings (p : parserState) (typ : itemType)
    (mk : List String → goBlock) (hd : headingLevelsOK p.doc)
    (hmk : ∀ is lvl txt, mk is = goBlock.heading lvl txt → False) :
    headingLevelsOK ((collectItems p typ).2.appendBlock (mk (collectItems p typ).1)).doc := by
  have hq : (collectItems p typ).2.doc = p.doc := collectItemsF_doc _ _ _
  show headingLevelsOK { (collectItems p typ).2.doc with
    content := (collectItems p typ).2.doc.content ++ [mk (collectItems p typ).1] }
  rw [hq]
  exact headingLevelsOK_append hd (fun lvl txt hx => absurd hx (by
    intro hx
    exact hmk _ lvl txt hx))

theorem parseToken_headings {p : parserState} {tok : item} {p' : parserState}
    (h : parseToken p tok = .ok p') (hd : headingLevelsOK p.doc) :
    headingLevelsOK p'.doc := by
  unfold parseToken at h
  cases htyp : tok.typ
  all_goals rw [htyp] at h
  all_goals dsimp only [] at h
  case error =>
    injection h with h
    subst h
    exact hd
  case eof =>
    injection h with h
    subst h
    exact hd
  case text =>
    injection h with h
    subst h
    exact hd
  case keyword =>
    injection h with h
    subst h
    exact hd
  case title =>
    exact headingLevelsOK_content_eq (parseMetadataF_ok_content h) hd
  case subtitle =>
    exact headingLevelsOK_content_eq (parseMetadataF_ok_content h) hd
  case date =>
    exact headingLevelsOK_content_eq (parseMetadataF_ok_content h) hd
  case author =>
    exact headingLevelsOK_content_eq (parseMetadataF_ok_content h) hd
  case paragraph =>
    injection h with h
    subst h
    exact headingLevelsOK_append hd (fun lvl txt hx => absurd hx (by simp))
  case headingOne =>
    rw [parseHeadingF, htyp] at h
    injection h with h
    subst h
    exact headingLevelsOK_append hd (fun lvl txt hx => by
      rcases hx with ⟨⟩
      omega)
  case headingTwo =>
    rw [parseHeadingF, htyp] at h
    injection h with h
    subst h
    exact headingLevelsOK_append hd (fun lvl txt hx => by
      rcases hx with ⟨⟩
      omega)
  case headingThree =>
    rw [parseHeadingF, htyp] at h
    injection h with h
    subst h
    exact headingLevelsOK_append hd (fun lvl txt hx => by
      rcases hx with ⟨⟩
      omega)
  case unorderedList =>
    injection h with h
    subst h
    exact collect_append_headings _ _ _ hd (fun is lvl txt hx => by simp at hx)
  case orderedList =>
    injection h with h
    subst h
    exact collect_append_headings _ _ _ hd (fun is lvl txt hx => by simp at hx)
  case footnotes =>
    injection h with h
    subst h
    exact collect_append_headings _ _ _ hd (fun is lvl txt hx => by simp at hx)
  case blockquote =>
    injection h with h
    subst h
    exact collect_append_headings _ _ (fun is => goBlock.blockquote (String.intercalate "\n" is))
      hd (fun is lvl txt hx => by simp at hx)
  case pre =>
    injection h with h
    subst h
    exact collect_append_headings _ _ (fun is => goBlock.pre (String.intercalate "\n" is))
      hd (fun is lvl txt hx => by simp at hx)
  case html =>
    injection h with h
    subst h
    exact collect_append_headings _ _ (fun is => goBlock.html (String.intercalate "\n" is))
      hd (fun is lvl txt hx => by simp at hx)
  case figure =>
    injection h with h
    subst h
    rcases parseFigureF_content p tok with ⟨hl, cap, hc⟩
    intro x hx lvl txt hxb
    rw [hc] at hx
    rcases List.mem_append.1 hx with hx | hx
    · exact hd x hx lvl txt hxb
    · rw [List.mem_singleton.1 hx] at hxb
      exact absurd hxb (by simp)

theorem parseLoopF_ok_headings {fuel : Nat} {p : parserState} {d : goDocument}
    {e : Option String} (h : parseLoopF fuel p = some (.ok d e))
    (hd : headingLevelsOK p.doc) : headingLevelsOK d := by
  induction fuel generalizing p with
  | zero => simp [parseLoopF] at h
  | succ fuel ih =>
    rw [parseLoopF] at h
    by_cases h1 : p.peekCount = 0 && p.rest.isEmpty
    · rw [if_pos h1] at h
      exact absurd (Option.some.inj h) (by simp)
    · rw [if_neg h1] at h
      rcases hnext : p.next with ⟨tok, p1⟩
      rw [hnext] at h
      dsimp only [] at h
      have hd1 : headingLevelsOK p1.doc := by
        have hdoc := parserState_next_doc p
        rw [hnext] at hdoc
        exact headingLevelsOK_content_eq (by rw [hdoc]) hd
      by_cases h2 : tok.typ = .eof
      · rw [if_pos h2] at h
        rcases Option.some.inj h with ⟨⟩
        exact hd1
      · rw [if_neg h2] at h
        rcases hpt : parseToken p1 tok with msg | p2
        · rw [hpt] at h
          exact absurd (Option.some.inj h) (by simp)
        · rw [hpt] at h
          exact ih h (parseToken_headings hpt hd1)

/-- C6: a line of more than three stars followed by whitespace lexes as a
level-3 heading; every heading block of a parsed document has level 1, 2
or 3; and `heading.WriteHTML` emits tag `<hK>` with `K = level + 1`, so
every emitted heading tag satisfies `2 ≤ K ≤ 4`. -/
theorem C6_heading_levels :
    lexItems "**** Hi" = [⟨.headingThree, "Hi", 5⟩, ⟨.eof, "", 7⟩]
    ∧ (∀ (s : String) (d : goDocument) (e : Option String),
        Parse s = some (.ok d e) → headingLevelsOK d)
    ∧ (∀ (level : Nat) (text : String), 1 ≤ level → level ≤ 3 →
        2 ≤ level + 1 ∧ level + 1 ≤ 4
        ∧ ("<h" ++ Nat.repr (level + 1)).data <+: (headingWriteHTML level text).data
        ∧ ("</h" ++ Nat.repr (level + 1) ++ ">").data <:+ (headingWriteHTML level text).data) := by
  refine ⟨by decide, ?_, ?_⟩
  · intro s d e h
    unfold Parse at h
    refine parseLoopF_ok_headings h ?_
    intro b hb lvl txt hx
    simp at hb
  · intro level text h1 h3
    refine ⟨by omega, by omega, ?_, ?_⟩
    · refine ⟨(" id=\"" ++ slugify text ++ "\" class=\"heading\">" ++ textToHTML text
        ++ " <a class=\"heading-ref\" href=\"#" ++ slugify text ++ "\">#</a>"
        ++ "</h" ++ Nat.repr (level + 1) ++ ">").data, ?_⟩
      simp [headingWriteHTML, string_data_append, List.append_assoc]
    · refine ⟨("<h" ++ Nat.repr (level + 1) ++ " id=\"" ++ slugify text
        ++ "\" class=\"heading\">" ++ textToHTML text
        ++ " <a class=\"heading-ref\" href=\"#" ++ slugify text ++ "\">#</a>").data, ?_⟩
      simp [headingWriteHTML, string_data_append, List.append_assoc]

/-- Witness for `C6_heading_levels`: the document parsed from `"* Hi"` and
the emitted `<h2>` tag of its heading. -/
theorem C6_heading_levels_witness :
    headingLevelsOK ⟨{}, [.heading 1 "Hi"]⟩
    ∧ (2 ≤ 1 + 1 ∧ 1 + 1 ≤ 4
       ∧ ("<h" ++ Nat.repr (1 + 1)).data <+: (headingWriteHTML 1 "Hi").data
       ∧ ("</h" ++ Nat.repr (1 + 1) ++ ">").data <:+ (headingWriteHTML 1 "Hi").data) :=
  ⟨C6_heading_levels.2.1 "* Hi" ⟨{}, [.heading 1 "Hi"]⟩ none (by decide),
   C6_heading_levels.2.2 1 "Hi" (by decide) (by decide)⟩

theorem special_toNat {c : Char} (h : isHTMLSpecial c = true) :
    c.toNat = 60 ∨ c.toNat = 62 ∨ c.toNat = 38 ∨ c.toNat = 34 := by
  simp [isHTMLSpecial, char_eq_iff_toNat] at h
  omega

theorem special_not_space {c : Char} (h : isHTMLSpecial c = true) :
    goUnicodeIsSpace c = false := by
  have := special_toNat h
  by_contra hx
  simp [goUnicodeIsSpace, char_eq_iff_toNat, Char.le_def, UInt32.le_def,
    BitVec.le_def, uint32_toBitVec_toNat, char_val_toNat] at hx
  omega

theorem digit_not_special {c : Char} (h : c.isDigit = true) :
    isHTMLSpecial c = false := by
  simp [Char.isDigit, UInt32.le_def, BitVec.le_def, uint32_toBitVec_toNat,
    char_val_toNat] at h
  by_contra hx
  simp only [Bool.not_eq_false] at hx
  have := special_toNat hx
  omega

theorem mem_dropWhile_of {p : Char → Bool} {l : List Char} {c : Char}
    (hp : p c = false) (hc : c ∈ l) : c ∈ l.dropWhile p := by
  have hsplit : l.takeWhile p ++ l.dropWhile p = l := List.takeWhile_append_dropWhile _ _
  rw [← hsplit] at hc
  rcases List.mem_append.1 hc with hx | hx
  · exact absurd (List.mem_takeWhile_imp hx) (by simp [hp])
  · exact hx

theorem mem_goTrimSpace {l : List Char} {c : Char}
    (hns : goUnicodeIsSpace c = false) (hc : c ∈ l) : c ∈ goTrimSpace l := by
  unfold goTrimSpace
  rw [List.mem_reverse]
  exact mem_dropWhile_of hns (by
    rw [List.mem_reverse]
    exact mem_dropWhile_of hns hc)

theorem httpsUrlStart_head {x : Char} {rest : List Char}
    (h : httpsUrlStart (x :: rest) = true) : x = 'h' := by
  unfold httpsUrlStart at h
  rw [Bool.and_eq_true] at h
  obtain ⟨h1, -⟩ := h
  rcases List.isPrefixOf_iff_prefix.1 h1 with ⟨t, ht⟩
  exact (List.cons.inj ht.symm).1

theorem mem_urlAnchor_of_mem {url : List Char} {c : Char} (hc : c ∈ url) :
    c ∈ urlAnchor url := by
  unfold urlAnchor
  simp [hc]

theorem replaceURLsF_mem {fuel : Nat} {l : List Char} {c : Char}
    (hf : l.length ≤ fuel) (hc : c ∈ l) : c ∈ replaceURLsF fuel l := by
  induction fuel generalizing l with
  | zero =>
    rcases l with _ | ⟨x, rest⟩
    · simp at hc
    · simp at hf
  | succ fuel ih =>
    rcases l with _ | ⟨x, rest⟩
    · simp at hc
    · have hlen : rest.length ≤ fuel := by simpa using Nat.le_of_succ_le_succ hf
      rw [replaceURLsF]
      by_cases h1 : isRegexSpace x && httpsUrlStart rest
      · rw [if_pos h1]
        rcases List.mem_cons.1 hc with hx | hx
        · exact hx ▸ List.mem_cons_self _ _
        · apply List.mem_cons_of_mem
          have hsplit : rest.takeWhile (fun y => !isRegexSpace y)
              ++ rest.dropWhile (fun y => !isRegexSpace y) = rest :=
            List.takeWhile_append_dropWhile _ _
          rw [← hsplit] at hx
          rcases List.mem_append.1 hx with hy | hy
          · exact List.mem_append.2 (Or.inl (mem_urlAnchor_of_mem hy))
          · refine List.mem_append.2 (Or.inr (ih ?_ hy))
            calc (rest.dropWhile (fun y => !isRegexSpace y)).length
                ≤ rest.length := (List.dropWhile_suffix _).length_le
              _ ≤ fuel := hlen
      · rw [if_neg h1]
        by_cases h2 : httpsUrlStart (x :: rest)
        · rw [if_pos h2]
          have hx : x = 'h' := httpsUrlStart_head h2
          have hdc : (x :: rest).dropWhile (fun y => !isRegexSpace y)
              = rest.dropWhile (fun y => !isRegexSpace y) := by
            rw [hx, List.dropWhile_cons, if_pos (by decide)]
          have hsplit : (x :: rest).takeWhile (fun y => !isRegexSpace y)
              ++ rest.dropWhile (fun y => !isRegexSpace y) = x :: rest := by
            rw [← hdc]
            exact List.takeWhile_append_dropWhile _ _
          rw [← hsplit] at hc
          rcases List.mem_append.1 hc with hy | hy
          · exact List.mem_append.2 (Or.inl (mem_urlAnchor_of_mem hy))
          · refine List.mem_append.2 (Or.inr (ih ?_ hy))
            calc (rest.dropWhile (fun y => !isRegexSpace y)).length
                ≤ rest.length := (List.dropWhile_suffix _).length_le
              _ ≤ fuel := hlen
        · rw [if_neg h2]
          rcases List.mem_cons.1 hc with hx | hx
          · exact hx ▸ List.mem_cons_self _ _
          · exact List.mem_cons_of_mem _ (ih hlen hx)

theorem drop_takeWhile_length (p : Char → Bool) :
    ∀ t : List Char, t.drop (t.takeWhile p).length = t.dropWhile p
  | [] => rfl
  | a :: t => by
    by_cases h : p a = true
    · rw [List.takeWhile_cons_of_pos h, List.dropWhile_cons_of_pos h]
      simpa using drop_takeWhile_length p t
    · rw [List.takeWhile_cons_of_neg h, List.dropWhile_cons_of_neg h]
      rfl

theorem fnRefMatch_decomp {rest : List Char} (h : fnRefMatch rest = true) :
    rest = 'f' :: 'n' :: ':' :: (((rest.drop 3).takeWhile Char.isDigit)
        ++ ']' :: rest.drop (3 + ((rest.drop 3).takeWhile Char.isDigit).length + 1))
    ∧ (∀ c ∈ (rest.drop 3).takeWhile Char.isDigit, c.isDigit = true) := by
  unfold fnRefMatch at h
  rw [Bool.and_eq_true] at h
  obtain ⟨h1, h2⟩ := h
  rcases List.isPrefixOf_iff_prefix.1 h1 with ⟨t, ht⟩
  have ht3 : rest.drop 3 = t := by
    rw [← ht]
    rfl
  have hsplit : t.takeWhile Char.isDigit ++ t.dropWhile Char.isDigit = t :=
    List.takeWhile_append_dropWhile _ _
  have hdropw : rest.drop (3 + (t.takeWhile Char.isDigit).length)
      = t.dropWhile Char.isDigit := by
    rw [← ht, Nat.add_comm]
    exact drop_takeWhile_length Char.isDigit t
  rw [ht3] at h2
  dsimp only [] at h2
  rw [Bool.and_eq_true] at h2
  obtain ⟨-, h4⟩ := h2
  rw [hdropw, beq_iff_eq] at h4
  rcases hdw : t.dropWhile Char.isDigit with _ | ⟨b, u⟩
  · rw [hdw] at h4
    simp at h4
  · rw [hdw] at h4
    simp only [List.head?_cons, Option.some.injEq] at h4
    subst h4
    have hrem : rest.drop (3 + (t.takeWhile Char.isDigit).length + 1) = u := by
      rw [← List.drop_drop, hdropw, hdw]
      rfl
    constructor
    · rw [ht3, hrem, ← hdw, hsplit]
      exact ht.symm
    · intro c hc
      rw [ht3] at hc
      exact List.mem_takeWhile_imp hc

theorem replaceFootnotesF_mem_special {fuel : Nat} {l : List Char} {c : Char}
    (hsp : isHTMLSpecial c = true) (hf : l.length ≤ fuel) (hc : c ∈ l) :
    c ∈ replaceFootnotesF fuel l := by
  induction fuel generalizing l with
  | zero =>
    rcases l with _ | ⟨x, rest⟩
    · simp at hc
    · simp at hf
  | succ fuel ih =>
    rcases l with _ | ⟨x, rest⟩
    · simp at hc
    · have hlen : rest.length ≤ fuel := by simpa using Nat.le_of_succ_le_succ hf
      rw [replaceFootnotesF]
      by_cases h1 : x = '[' && fnRefMatch rest
      · rw [if_pos h1]
        rw [Bool.and_eq_true] at h1
        obtain ⟨hx, hm⟩ := h1
        rcases fnRefMatch_decomp hm with ⟨hshape, hdigits⟩
        have hcx : c ≠ x := by
          intro he
          rw [he, (by exact of_decide_eq_true hx : x = '[')] at hsp
          exact absurd hsp (by decide)
      -- c is in rest, and cannot be in the consumed "fn:<digits>]" part
        have hcrest : c ∈ rest := by
          rcases List.mem_cons.1 hc with he | he
          · exact absurd he.symm (fun hx2 => hcx hx2.symm)
          · exact he
        rw [hshape] at hcrest
        have hspec := special_toNat hsp
        rcases List.mem_cons.1 hcrest with he | hcrest
        · rw [char_eq_iff_toNat] at he
          exact absurd he (by intro hx2; revert hspec; rw [hx2]; decide)
        rcases List.mem_cons.1 hcrest with he | hcrest
        · rw [char_eq_iff_toNat] at he
          exact absurd he (by intro hx2; revert hspec; rw [hx2]; decide)
        rcases List.mem_cons.1 hcrest with he | hcrest
        · rw [char_eq_iff_toNat] at he
          exact absurd he (by intro hx2; revert hspec; rw [hx2]; decide)
        rcases List.mem_append.1 hcrest with he | hcrest
        · exact absurd (digit_not_special (hdigits c he)) (by simp [hsp])
        rcases List.mem_cons.1 hcrest with he | hcrest
        · rw [char_eq_iff_toNat] at he
          exact absurd he (by intro hx2; revert hspec; rw [hx2]; decide)
        refine List.mem_append.2 (Or.inr (ih ?_ hcrest))
        calc (rest.drop (3 + ((rest.drop 3).takeWhile Char.isDigit).length + 1)).length
            ≤ rest.length := by
              rw [List.length_drop]
              omega
          _ ≤ fuel := hlen
      · rw [if_neg h1]
        rcases List.mem_cons.1 hc with he | he
        · exact he ▸ List.mem_cons_self _ _
        · exact List.mem_cons_of_mem _ (ih hlen he)

/-- Characters that HTML would require escaping survive the inline
rewriter unchanged: `textToHTML` never deletes or escapes them. -/
theorem textToHTML_mem_special {c : Char} (hsp : isHTMLSpecial c = true)
    {s : String} (hc : c ∈ s.data) : c ∈ (textToHTML s).data := by
  unfold textToHTML replaceFootnotes replaceURLs
  exact mem_goTrimSpace (special_not_space hsp)
    (replaceFootnotesF_mem_special hsp (Nat.le_refl _)
      (replaceURLsF_mem (Nat.le_refl _) hc))
theorem mem_data_iff {a b : String} {c : Char} :
    c ∈ (a ++ b).data ↔ c ∈ a.data ∨ c ∈ b.data := by
  rw [string_data_append]
  exact List.mem_append

theorem ne_empty_of_mem {s : String} {c : Char} (h : c ∈ s.data) : s ≠ "" := by
  intro he
  rw [he] at h
  exact List.not_mem_nil c h

theorem listItemsHTML_mem {opts : htmlOptions} {c : Char} {items : List String}
    {t : String} (hsp : isHTMLSpecial c = true) (ht : t ∈ items) (hc : c ∈ t.data) :
    c ∈ (listItemsHTML opts items).data := by
  induction items with
  | nil => exact absurd ht (List.not_mem_nil t)
  | cons s ss ih =>
    rw [listItemsHTML]
    rcases List.mem_cons.1 ht with he | he
    · subst he
      simp [mem_data_iff, textToHTML_mem_special hsp hc]
    · simp [mem_data_iff, ih he]

theorem blockWriteHTML_mem {c : Char} (hsp : isHTMLSpecial c = true)
    {b : goBlock} (hb : blockTextHas c b) (opts : htmlOptions) :
    c ∈ (blockWriteHTML b opts).data := by
  cases b with
  | heading level text =>
    have hc : c ∈ text.data := hb
    simp [blockWriteHTML, headingWriteHTML, mem_data_iff,
      textToHTML_mem_special hsp hc]
  | paragraph text =>
    have hc : c ∈ text.data := hb
    simp [blockWriteHTML, paragraphWriteHTML, mem_data_iff,
      textToHTML_mem_special hsp hc]
  | unorderedList items =>
    have hb2 : ∃ t ∈ items, c ∈ t.data := hb
    obtain ⟨t, ht, hc⟩ := hb2
    simp [blockWriteHTML, unorderedListWriteHTML, mem_data_iff,
      listItemsHTML_mem hsp ht hc]
  | orderedList items =>
    have hb2 : ∃ t ∈ items, c ∈ t.data := hb
    obtain ⟨t, ht, hc⟩ := hb2
    simp [blockWriteHTML, orderedListWriteHTML, mem_data_iff,
      listItemsHTML_mem hsp ht hc]
  | blockquote text =>
    have hc : c ∈ text.data := hb
    simp [blockWriteHTML, blockquoteWriteHTML, mem_data_iff,
      textToHTML_mem_special hsp hc]
  | pre text => exact hb.elim
  | html text => exact hb.elim
  | figure args htmlLine caption =>
    have hc : c ∈ caption.data := hb
    rw [blockWriteHTML, figureWriteHTML, if_pos (ne_empty_of_mem hc)]
    simp [mem_data_iff, hc]
  | footnotes items => exact hb.elim

theorem contentHTML_mem {c : Char} (hsp : isHTMLSpecial c = true)
    {bs : List goBlock} {b : goBlock} (hb : b ∈ bs) (hbt : blockTextHas c b)
    (opts : htmlOptions) : c ∈ (contentHTML opts bs).data := by
  induction bs with
  | nil => exact absurd hb (List.not_mem_nil b)
  | cons x xs ih =>
    rw [contentHTML]
    rcases List.mem_cons.1 hb with he | he
    · subst he
      simp [mem_data_iff, blockWriteHTML_mem hsp hbt opts]
    · simp [mem_data_iff, ih he]

theorem metadataWriteHTML_mem {c : Char} {m : goMetadata}
    (h : c ∈ m.title.data ∨ c ∈ m.subtitle.data ∨ c ∈ m.author.data)
    (opts : htmlOptions) : c ∈ (metadataWriteHTML m opts).data := by
  rcases h with h | h | h
  · rw [metadataWriteHTML, if_pos (ne_empty_of_mem h)]
    simp [mem_data_iff, h]
  · rw [metadataWriteHTML, if_pos (ne_empty_of_mem h)]
    simp [mem_data_iff, h]
  · rw [metadataWriteHTML, if_pos (ne_empty_of_mem h)]
    simp [mem_data_iff, h]

/-- **C10.** No HTML escaping anywhere: the inline rewriter `textToHTML`
copies every `<`, `>`, `&`, `"` of its input into its output (it only
performs the URL and footnote substitutions plus trimming), and every such
character occurring in a document's metadata values (title, subtitle,
author) or in a block's textual payload (heading text, paragraph text,
list items, blockquote text, figure caption) occurs verbatim in the
emitted HTML of the document. -/
theorem C10_no_html_escaping {c : Char} (hsp : isHTMLSpecial c = true) :
    (∀ s : String, occursIn c s → occursIn c (textToHTML s)) ∧
    (∀ (d : goDocument) (opts : htmlOptions),
      (occursIn c d.metadata.title ∨ occursIn c d.metadata.subtitle ∨
        occursIn c d.metadata.author ∨ ∃ b ∈ d.content, blockTextHas c b) →
      occursIn c (docHTML d opts)) := by
  constructor
  · intro s hs
    exact textToHTML_mem_special hsp hs
  · intro d opts h
    unfold occursIn at *
    rw [docHTML]
    rcases h with h | h | h | ⟨b, hb, hbt⟩
    · simp [mem_data_iff, metadataWriteHTML_mem (Or.inl h) opts]
    · simp [mem_data_iff, metadataWriteHTML_mem (Or.inr (Or.inl h)) opts]
    · simp [mem_data_iff, metadataWriteHTML_mem (Or.inr (Or.inr h)) opts]
    · simp [mem_data_iff, contentHTML_mem hsp hb hbt opts]

theorem C10_no_html_escaping_witness :
    isHTMLSpecial '<' = true ∧
    occursIn '<' (textToHTML "a<b") ∧
    occursIn '<' (docHTML ⟨⟨"T", "", zeroDate, ""⟩,
      [goBlock.paragraph "x<y"]⟩ ⟨false⟩) :=
  ⟨by decide,
   (C10_no_html_escaping (by decide)).1 "a<b" (by decide),
   (C10_no_html_escaping (by decide)).2 ⟨⟨"T", "", zeroDate, ""⟩,
       [goBlock.paragraph "x<y"]⟩ ⟨false⟩
     (Or.inr (Or.inr (Or.inr ⟨goBlock.paragraph "x<y",
       List.mem_cons_self _ _, show '<' ∈ "x<y".data by decide⟩)))⟩

theorem next_cases (l : lexer) :
    (l.input.length ≤ l.pos ∧ l.next = (none, { l with width := 0 })) ∨
    (∃ h : l.pos < l.input.length,
      l.next = (some (l.input.get ⟨l.pos, h⟩),
        { l with pos := l.pos + 1, width := 1 })) := by
  unfold lexer.next
  by_cases h : l.pos < l.input.length
  · right
    exact ⟨h, by rw [dif_pos h]⟩
  · left
    exact ⟨Nat.le_of_not_lt h, by rw [dif_neg h]⟩

theorem peek_fst (l : lexer) : (l.peek).1 = (l.next).1 := by
  unfold lexer.peek
  rcases next_cases l with ⟨hle, hnx⟩ | ⟨hlt, hnx⟩ <;> rw [hnx]

theorem peek_snd (l : lexer) :
    (l.peek).2 = { l with width := if l.pos < l.input.length then 1 else 0 } := by
  unfold lexer.peek
  rcases next_cases l with ⟨hle, hnx⟩ | ⟨hlt, hnx⟩
  · rw [hnx, if_neg (Nat.not_lt.2 hle)]
    unfold lexer.backup
    simp
  · rw [hnx, if_pos hlt]
    unfold lexer.backup
    simp

theorem scanOK_refl (l : lexer) : scanOK l l :=
  ⟨rfl, Nat.le_refl _, Nat.le_max_left _ _⟩

theorem scanOK_trans {l1 l2 l3 : lexer} (h1 : scanOK l1 l2) (h2 : scanOK l2 l3) :
    scanOK l1 l3 := by
  obtain ⟨hi1, hp1, hq1⟩ := h1
  obtain ⟨hi2, hp2, hq2⟩ := h2
  rw [hi1] at hi2 hq2
  exact ⟨hi2, Nat.le_trans hp1 hp2, by omega⟩

theorem next_step_scanOK {l : lexer} (h : l.pos < l.input.length) :
    scanOK l { l with pos := l.pos + 1, width := 1 } := by
  refine ⟨rfl, Nat.le_succ _, ?_⟩
  simp only []
  omega

theorem next_backup_scanOK (l : lexer) :
    scanOK l (((l.next).2).backup) ∧ (((l.next).2).backup).pos = l.pos := by
  rcases next_cases l with ⟨hle, hnx⟩ | ⟨hlt, hnx⟩ <;>
    rw [hnx] <;> unfold lexer.backup scanOK <;> simp

theorem scanLineF_scanOK : ∀ (fuel : Nat) (l : lexer), scanOK l (scanLineF fuel l)
  | 0, l => by
    rw [scanLineF]
    exact (next_backup_scanOK l).1
  | fuel+1, l => by
    rw [scanLineF]
    rcases next_cases l with ⟨hle, hnx⟩ | ⟨hlt, hnx⟩ <;> rw [hnx] <;> dsimp only []
    · rw [if_pos (by decide)]
      have := (next_backup_scanOK l).1
      rw [hnx] at this
      exact this
    · by_cases hnl : isNewlineChar l.input[l.pos] = true
      · rw [if_pos (by simp [isNewlineO, hnl])]
        have := (next_backup_scanOK l).1
        rw [hnx] at this
        exact this
      · rw [if_neg (by simp [isNewlineO, hnl])]
        exact scanOK_trans (next_step_scanOK hlt) (scanLineF_scanOK fuel _)

theorem skipSpacesF_scanOK : ∀ (fuel : Nat) (l : lexer), scanOK l (skipSpacesF fuel l)
  | 0, l => by
    rw [skipSpacesF]
    exact (next_backup_scanOK l).1
  | fuel+1, l => by
    rw [skipSpacesF]
    rcases next_cases l with ⟨hle, hnx⟩ | ⟨hlt, hnx⟩ <;> rw [hnx] <;> dsimp only []
    · rw [if_pos (by decide)]
      have := (next_backup_scanOK l).1
      rw [hnx] at this
      exact this
    · by_cases hsp : isSpaceChar l.input[l.pos] = true
      · rw [if_neg (by simp [isSpaceO, hsp])]
        exact scanOK_trans (next_step_scanOK hlt) (skipSpacesF_scanOK fuel _)
      · rw [if_pos (by simp [isSpaceO, hsp])]
        have := (next_backup_scanOK l).1
        rw [hnx] at this
        exact this

theorem scanStarsF_scanOK : ∀ (fuel : Nat) (l : lexer), scanOK l (scanStarsF fuel l)
  | 0, l => by
    rw [scanStarsF]
    exact (next_backup_scanOK l).1
  | fuel+1, l => by
    rw [scanStarsF]
    rcases next_cases l with ⟨hle, hnx⟩ | ⟨hlt, hnx⟩ <;> rw [hnx] <;> dsimp only []
    · rw [if_pos (by decide)]
      have := (next_backup_scanOK l).1
      rw [hnx] at this
      exact this
    · by_cases hst : l.input[l.pos] = '*'
      · rw [if_neg (by simp [hst])]
        exact scanOK_trans (next_step_scanOK hlt) (scanStarsF_scanOK fuel _)
      · rw [if_pos (by simp [hst])]
        have := (next_backup_scanOK l).1
        rw [hnx] at this
        exact this

theorem scanDigitsF_scanOK : ∀ (fuel : Nat) (l : lexer),
    scanOK l (scanDigitsF fuel l).1 ∧
    ((scanDigitsF fuel l).2 = true → l.pos < (scanDigitsF fuel l).1.pos)
  | 0, l => by
    rw [scanDigitsF]
    exact ⟨(next_backup_scanOK l).1, by simp⟩
  | fuel+1, l => by
    rw [scanDigitsF]
    rcases next_cases l with ⟨hle, hnx⟩ | ⟨hlt, hnx⟩ <;> rw [hnx] <;> dsimp only []
    · rw [if_neg (by decide), if_neg (by decide)]
      refine ⟨?_, by simp⟩
      have := (next_backup_scanOK l).1
      rw [hnx] at this
      exact this
    · by_cases hdg : (l.input[l.pos]).isDigit = true
      · rw [if_pos (by simp [isDigitO, hdg])]
        have hrec := scanDigitsF_scanOK fuel { l with pos := l.pos + 1, width := 1 }
        refine ⟨scanOK_trans (next_step_scanOK hlt) hrec.1, fun hdot => ?_⟩
        exact Nat.lt_trans (Nat.lt_succ_self _) (hrec.2 hdot)
      · by_cases hdot : l.input[l.pos] = '.'
        · rw [if_neg (by simp [isDigitO, hdg]), if_pos (by simp [hdot])]
          exact ⟨next_step_scanOK hlt, fun _ => Nat.lt_succ_self _⟩
        · rw [if_neg (by simp [isDigitO, hdg]), if_neg (by simp [hdot])]
          refine ⟨?_, by simp⟩
          have := (next_backup_scanOK l).1
          rw [hnx] at this
          exact this

theorem scanKeywordF_scanOK : ∀ (fuel : Nat) (l l' : lexer),
    scanKeywordF fuel l = some l' → scanOK l l'
  | 0, l, l' => by
    rw [scanKeywordF]
    intro h
    exact absurd h (by simp)
  | fuel+1, l, l' => by
    rw [scanKeywordF]
    rcases next_cases l with ⟨hle, hnx⟩ | ⟨hlt, hnx⟩ <;> rw [hnx] <;> dsimp only []
    · rw [if_neg (by decide), if_pos (by decide)]
      intro h
      exact absurd h (by simp)
    · by_cases hsp : (isSpaceO (some (l.input.get ⟨l.pos, hlt⟩))
          || isNewlineO (some (l.input.get ⟨l.pos, hlt⟩))) = true
      · rw [if_pos hsp]
        intro h
        obtain rfl := Option.some.inj h
        have := (next_backup_scanOK l).1
        rw [hnx] at this
        exact this
      · rw [if_neg hsp, if_neg (by simp)]
        intro h
        exact scanOK_trans (next_step_scanOK hlt) (scanKeywordF_scanOK fuel _ _ h)

theorem lexRank_le_three (s : lexState) : lexRank s ≤ 3 := by
  cases s <;> simp [lexRank]

theorem stepOK_halt {s : lexState} {l : lexer} {t : item}
    (h : isTerminalItem t = true) : stepOK s l ([], .halt t) := by
  refine ⟨by simp, fun t2 ht => ?_, fun s2 l2 h2 => stepRes.noConfusion h2⟩
  obtain rfl := stepRes.halt.inj ht
  exact h

theorem stepOK_cont {s : lexState} {l : lexer} {s2 : lexState} {l2 : lexer}
    (h1 : l2.input = l.input) (h2 : l2.pos ≤ l.input.length)
    (h3 : lexMeasure s2 l2 < lexMeasure s l) : stepOK s l ([], .cont s2 l2) := by
  refine ⟨by simp, fun t ht => stepRes.noConfusion ht, fun s3 l3 h => ?_⟩
  obtain ⟨rfl, rfl⟩ := stepRes.cont.inj h
  exact ⟨h1, h2, h3⟩

theorem stepOK_prepend {s : lexState} {l : lexer} {i : item}
    (hi : isTerminalItem i = false) {items : List item} {res : stepRes}
    (h : stepOK s l (items, res)) : stepOK s l (i :: items, res) := by
  obtain ⟨ha, hb, hc⟩ := h
  refine ⟨?_, hb, hc⟩
  intro j hj
  rcases List.mem_cons.1 hj with rfl | hj
  · exact hi
  · exact ha j hj

theorem stepOK_mono {s : lexState} {l l5 : lexer} {out : List item × stepRes}
    (h : stepOK s l5 out) (hi : l5.input = l.input) (hpge : l.pos ≤ l5.pos) :
    stepOK s l out := by
  obtain ⟨ha, hb, hc⟩ := h
  refine ⟨ha, hb, fun s2 l2 h2 => ?_⟩
  obtain ⟨e1, e2, e3⟩ := hc s2 l2 h2
  rw [hi] at e1 e2
  refine ⟨e1, e2, Nat.lt_of_lt_of_le e3 ?_⟩
  unfold lexMeasure
  rw [hi]
  omega

theorem bodyOK_halt {l : lexer} {t : item} (h : isTerminalItem t = true) :
    bodyOK l ([], .halt t) := by
  refine ⟨by simp, fun t2 ht => ?_, fun s2 l2 h2 => stepRes.noConfusion h2⟩
  obtain rfl := stepRes.halt.inj ht
  exact h

theorem bodyOK_cont {l : lexer} {s2 : lexState} {l2 : lexer}
    (h1 : l2.input = l.input) (h2 : l2.pos ≤ l.input.length)
    (h3 : l.pos < l2.pos) : bodyOK l ([], .cont s2 l2) := by
  refine ⟨by simp, fun t ht => stepRes.noConfusion ht, fun s3 l3 h => ?_⟩
  obtain ⟨rfl, rfl⟩ := stepRes.cont.inj h
  exact ⟨h1, h2, h3⟩

theorem bodyOK_prepend {l : lexer} {i : item}
    (hi : isTerminalItem i = false) {items : List item} {res : stepRes}
    (h : bodyOK l (items, res)) : bodyOK l (i :: items, res) := by
  obtain ⟨ha, hb, hc⟩ := h
  refine ⟨?_, hb, hc⟩
  intro j hj
  rcases List.mem_cons.1 hj with rfl | hj
  · exact hi
  · exact ha j hj

theorem bodyOK_mono {l l5 : lexer} {out : List item × stepRes}
    (h : bodyOK l5 out) (hi : l5.input = l.input) (hpge : l.pos ≤ l5.pos) :
    bodyOK l out := by
  obtain ⟨ha, hb, hc⟩ := h
  refine ⟨ha, hb, fun s2 l2 h2 => ?_⟩
  obtain ⟨e1, e2, e3⟩ := hc s2 l2 h2
  rw [hi] at e1 e2
  exact ⟨e1, e2, Nat.lt_of_le_of_lt hpge e3⟩

theorem skipSpacesF_advance {l : lexer} {c : Char}
    (hc : (l.next).1 = some c) (hsp : isSpaceChar c = true) :
    l.pos + 1 ≤ (skipSpacesF (lexRemaining l) l).pos := by
  rcases next_cases l with ⟨hle, hnx⟩ | ⟨hlt, hnx⟩
  · rw [hnx] at hc
    exact absurd hc (by simp)
  · rw [hnx] at hc
    dsimp only [] at hc
    have hget : l.input[l.pos] = c := Option.some.inj hc
    have hrem : lexRemaining l = (l.input.length - l.pos - 1) + 1 := by
      unfold lexRemaining
      omega
    rw [hrem, skipSpacesF, hnx]
    dsimp only []
    rw [if_neg (by simp [isSpaceO, hget, hsp])]
    exact (skipSpacesF_scanOK (l.input.length - l.pos - 1)
      { l with pos := l.pos + 1, width := 1 }).2.1

theorem footnotesDispatch_stepOK (l : lexer) (hp : l.pos ≤ l.input.length) :
    stepOK .keyword l (footnotesDispatch l) := by
  rw [footnotesDispatch]
  rcases next_cases l with ⟨hle, hnx⟩ | ⟨hlt, hnx⟩ <;> rw [hnx] <;> dsimp only []
  · rw [if_neg (by decide)]
    rcases next_cases ({ l with width := 0 } : lexer) with ⟨h2, hnx2⟩ | ⟨h2, hnx2⟩ <;>
      rw [hnx2] <;> dsimp only []
    · exact stepOK_cont rfl (by simpa [lexer.ignore] using hp)
        (by simp only [lexMeasure, lexRank, lexer.ignore]; omega)
    · exact stepOK_cont rfl (by simpa [lexer.ignore] using h2)
        (by simp only [lexMeasure, lexRank, lexer.ignore]; omega)
  · by_cases hnl : isNewlineChar l.input[l.pos] = true
    · rw [if_pos (by simp [isNewlineO, hnl])]
      rcases hpk : ({ l with pos := l.pos + 1, width := 1 } : lexer).peek with ⟨r2, l2⟩
      dsimp only []
      have hl2 := peek_snd ({ l with pos := l.pos + 1, width := 1 } : lexer)
      rw [hpk] at hl2
      dsimp only [] at hl2
      have hl2pos : l2.pos = l.pos + 1 := by rw [hl2]
      have hl2input : l2.input = l.input := by rw [hl2]
      have hr2 := peek_fst ({ l with pos := l.pos + 1, width := 1 } : lexer)
      rw [hpk] at hr2
      dsimp only [] at hr2
      by_cases hdash : r2 = some '-'
      · rw [if_neg (by simp [hdash])]
        have hlt2 : l.pos + 1 < l.input.length := by
          rcases next_cases ({ l with pos := l.pos + 1, width := 1 } : lexer) with
            ⟨h3, hnx3⟩ | ⟨h3, hnx3⟩
          · rw [hnx3] at hr2
            rw [hr2] at hdash
            exact absurd hdash (by simp)
          · simpa using h3
        rcases next_cases l2 with ⟨h3, hnx3⟩ | ⟨h3, hnx3⟩
        · rw [hl2pos, hl2input] at h3
          omega
        · rw [hnx3]
          dsimp only []
          rw [hl2pos, hl2input] at h3
          refine stepOK_cont (by simp [lexer.ignore, hl2input]) ?_ ?_
          · simp only [lexer.ignore]
            omega
          · simp only [lexMeasure, lexRank, lexer.ignore]
            rw [hl2input, hl2pos]
            omega
      · rw [if_pos hdash]
        exact stepOK_halt rfl
    · rw [if_neg (by simp [isNewlineO, hnl])]
      rcases next_cases ({ l with pos := l.pos + 1, width := 1 } : lexer) with
        ⟨h2, hnx2⟩ | ⟨h2, hnx2⟩ <;> rw [hnx2] <;> dsimp only []
      · exact stepOK_cont rfl (by simpa [lexer.ignore] using Nat.succ_le_of_lt hlt)
          (by simp only [lexMeasure, lexRank, lexer.ignore]; omega)
      · have h2b : l.pos + 1 + 1 ≤ l.input.length := by simpa using h2
        exact stepOK_cont rfl (by simpa [lexer.ignore] using h2b)
          (by simp only [lexMeasure, lexRank, lexer.ignore]; omega)

theorem keywordBodyF_bodyOK : ∀ (fuel : Nat) (l : lexer),
    l.pos ≤ l.input.length → bodyOK l (keywordBodyF fuel l)
  | 0, l => by
    intro hp
    rw [keywordBodyF]
    rcases next_cases l with ⟨hle, hnx⟩ | ⟨hlt, hnx⟩ <;> rw [hnx] <;> dsimp only [] <;>
      exact bodyOK_halt rfl
  | fuel+1, l => by
    intro hp
    rw [keywordBodyF]
    rcases next_cases l with ⟨hle, hnx⟩ | ⟨hlt, hnx⟩ <;> rw [hnx] <;> dsimp only []
    · -- a = none: end of input
      rcases hpk : ({ l with width := 0 } : lexer).peek with ⟨b, l2⟩
      dsimp only []
      rw [if_neg (by simp [isNewlineO]), if_neg (by simp [isNewlineO]), if_pos rfl]
      exact bodyOK_halt rfl
    · rcases hpk : ({ l with pos := l.pos + 1, width := 1 } : lexer).peek with ⟨b, l2⟩
      dsimp only []
      have hl2 := peek_snd ({ l with pos := l.pos + 1, width := 1 } : lexer)
      rw [hpk] at hl2
      dsimp only [] at hl2
      have hl2pos : l2.pos = l.pos + 1 := by rw [hl2]
      have hl2input : l2.input = l.input := by rw [hl2]
      have hb := peek_fst ({ l with pos := l.pos + 1, width := 1 } : lexer)
      rw [hpk] at hb
      dsimp only [] at hb
      split
      · rename_i h1
        refine bodyOK_cont (by simp [lexer.ignore, hl2input]) ?_ ?_
        · simp only [lexer.ignore]
          omega
        · simp only [lexer.ignore]
          omega
      · rename_i h1
        split
        · rename_i h2
          rw [Bool.and_eq_true] at h2
          obtain ⟨-, hb2⟩ := h2
          have hbsome : l.pos + 1 < l.input.length := by
            rcases next_cases ({ l with pos := l.pos + 1, width := 1 } : lexer) with
              ⟨h3, hnx3⟩ | ⟨h3, hnx3⟩
            · rw [hnx3] at hb
              rw [hb] at hb2
              exact absurd hb2 (by simp [isNewlineO])
            · simpa using h3
          rcases next_cases l2 with ⟨h3, hnx3⟩ | ⟨h3, hnx3⟩
          · rw [hl2pos, hl2input] at h3
            omega
          · rw [hnx3]
            dsimp only []
            rw [hl2pos, hl2input] at h3
            refine bodyOK_cont (by simp [lexer.ignore, hl2input]) ?_ ?_
            · simp only [lexer.ignore]
              omega
            · simp only [lexer.ignore]
              omega
        · rename_i h2
          split
          · rename_i h3
            exact absurd h3 (by simp)
          · rename_i h3
            split
            · rename_i h4
              exact bodyOK_halt rfl
            · rename_i h4
              -- scan one line, emit a Text item, recurse
              have hl3pos : (if isNewlineO (some (l.input.get ⟨l.pos, hlt⟩)) = true then
                  l2.ignore else l2).pos = l.pos + 1 := by
                split <;> simp [lexer.ignore, hl2pos]
              have hl3input : (if isNewlineO (some (l.input.get ⟨l.pos, hlt⟩)) = true then
                  l2.ignore else l2).input = l.input := by
                split <;> simp [lexer.ignore, hl2input]
              obtain ⟨hsi, hsp2, hsq⟩ := scanLineF_scanOK
                (lexRemaining (if isNewlineO (some (l.input.get ⟨l.pos, hlt⟩)) = true then
                  l2.ignore else l2))
                (if isNewlineO (some (l.input.get ⟨l.pos, hlt⟩)) = true then l2.ignore else l2)
              dsimp only [lexer.emit]
              rw [hl3pos, hl3input] at hsq
              rw [hl3input] at hsi
              rw [hl3pos] at hsp2
              refine bodyOK_prepend ?_ (bodyOK_mono (keywordBodyF_bodyOK fuel _ ?_) ?_ ?_)
              · rfl
              · dsimp only []
                rw [hsi]
                omega
              · dsimp only []
                exact hsi
              · dsimp only []
                omega

theorem ignore_input (l : lexer) : (l.ignore).input = l.input := rfl

theorem ignore_pos (l : lexer) : (l.ignore).pos = l.pos := rfl

/-- The heading kind chosen from the star count is never a control item. -/
theorem heading_kind_ne (b1 b2 : Prop) [Decidable b1] [Decidable b2] :
    (if b1 then itemType.headingOne else if b2 then itemType.headingTwo
      else itemType.headingThree) ≠ itemType.error ∧
    (if b1 then itemType.headingOne else if b2 then itemType.headingTwo
      else itemType.headingThree) ≠ itemType.eof := by
  constructor <;> (repeat' split) <;> simp

theorem emit_nonterminal {l : lexer} {k : itemType} (hk1 : k ≠ .error)
    (hk2 : k ≠ .eof) : isTerminalItem ((l.emit k).1) = false := by
  simp [lexer.emit, isTerminalItem, hk1, hk2]

theorem keyFor_ne {w : String} {k : itemType} (h : keyFor w = some k) :
    k ≠ .error ∧ k ≠ .eof := by
  unfold keyFor at h
  repeat' split at h
  all_goals simp_all
  all_goals try subst h
  all_goals decide

theorem next_fst_congr (a b : lexer) (hi : a.input = b.input)
    (hpos : a.pos = b.pos) : (a.next).1 = (b.next).1 := by
  unfold lexer.next
  by_cases h : b.pos < b.input.length
  · rw [dif_pos h, dif_pos (by rw [hi, hpos]; exact h)]
    simp [List.get_eq_getElem, hi, hpos]
  · rw [dif_neg h, dif_neg (by rw [hi, hpos]; exact h)]

theorem stepOK_of_bodyOK {l l5 : lexer} {out : List item × stepRes}
    (h : bodyOK l5 out) (hi : l5.input = l.input) (hpge : l.pos ≤ l5.pos) :
    stepOK .keyword l out := by
  obtain ⟨ha, hb, hc⟩ := h
  refine ⟨ha, hb, fun s2 l2 h2 => ?_⟩
  obtain ⟨e1, e2, e3⟩ := hc s2 l2 h2
  rw [hi] at e1 e2
  refine ⟨e1, e2, ?_⟩
  have hrank := lexRank_le_three s2
  simp only [lexMeasure]
  rw [e1, show lexRank .keyword = 2 from rfl]
  omega

theorem lexBlockF_stepOK : ∀ (fuel : Nat) (l : lexer),
    l.pos ≤ l.input.length → stepOK .block l (lexBlockF fuel l)
  | 0, l => by
    intro hp
    rw [lexBlockF]
    exact stepOK_halt rfl
  | fuel+1, l => by
    intro hp
    rw [lexBlockF]
    rcases next_cases l with ⟨hle, hnx⟩ | ⟨hlt, hnx⟩ <;> rw [hnx] <;> dsimp only []
    · rw [if_neg (by simp), if_neg (by simp), if_neg (by simp),
        if_neg (by decide), if_neg (by decide), if_pos rfl]
      exact stepOK_halt rfl
    · by_cases hpc : l.input[l.pos] = '%'
      · rw [if_pos (by simp [hpc])]
        exact stepOK_cont rfl (by simpa using hlt)
          (by simp only [lexMeasure, lexRank]; omega)
      · rw [if_neg (by simp [hpc])]
        by_cases hst : l.input[l.pos] = '*'
        · rw [if_pos (by simp [hst])]
          exact stepOK_cont rfl (by simpa using hlt)
            (by simp only [lexMeasure, lexRank]; omega)
        · rw [if_neg (by simp [hst])]
          by_cases hds : l.input[l.pos] = '-'
          · rw [if_pos (by simp [hds])]
            exact stepOK_cont rfl (by simpa using hlt)
              (by simp only [lexMeasure, lexRank]; omega)
          · rw [if_neg (by simp [hds])]
            by_cases hdg : (l.input[l.pos]).isDigit = true
            · rw [if_pos (by simp [isDigitO, hdg])]
              exact stepOK_cont rfl (by simpa using hlt)
                (by simp only [lexMeasure, lexRank]; omega)
            · rw [if_neg (by simp [isDigitO, hdg])]
              by_cases hsn : (isSpaceChar l.input[l.pos]
                  || isNewlineChar l.input[l.pos]) = true
              · rw [if_pos (by simpa [isSpaceO, isNewlineO] using hsn)]
                refine stepOK_mono (lexBlockF_stepOK fuel _ ?_)
                  (by simp [lexer.ignore]) (by simp [lexer.ignore])
                simpa [lexer.ignore] using hlt
              · rw [if_neg (by simpa [isSpaceO, isNewlineO] using hsn), if_neg (by simp)]
                refine stepOK_cont (by simp [lexer.backup]) ?_ ?_
                · simp only [lexer.backup]
                  omega
                · simp only [lexMeasure, lexRank, lexer.backup]
                  omega

theorem lexUnorderedListF_stepOK (l : lexer) (hp : l.pos ≤ l.input.length) :
    stepOK .unorderedList l (lexUnorderedListF l) := by
  rw [lexUnorderedListF]
  rcases hpk : l.peek with ⟨p, l1⟩
  dsimp only []
  have hl1 := peek_snd l
  rw [hpk] at hl1
  dsimp only [] at hl1
  have hl1pos : l1.pos = l.pos := by rw [hl1]
  have hl1input : l1.input = l.input := by rw [hl1]
  have hpfst := peek_fst l
  rw [hpk] at hpfst
  dsimp only [] at hpfst
  by_cases hspace : isSpaceO p = true
  · rw [if_neg (by simp [hspace])]
    obtain ⟨sp, hpeq, hspc⟩ : ∃ c, p = some c ∧ isSpaceChar c = true := by
      rcases p with _ | c
      · exact absurd hspace (by simp [isSpaceO])
      · exact ⟨c, rfl, by simpa [isSpaceO] using hspace⟩
    have hnext1 : (l1.next).1 = some sp := by
      rw [next_fst_congr l1 l hl1input hl1pos, ← hpfst, hpeq]
    have hadv := skipSpacesF_advance hnext1 hspc
    obtain ⟨hki, hkp, hkq⟩ := skipSpacesF_scanOK (lexRemaining l1) l1
    obtain ⟨hli, hlp, hlq⟩ := scanLineF_scanOK
      (lexRemaining (skipSpacesF (lexRemaining l1) l1).ignore)
      (skipSpacesF (lexRemaining l1) l1).ignore
    rw [ignore_input] at hli
    rw [ignore_pos] at hlp
    rw [ignore_pos, ignore_input] at hlq
    refine stepOK_prepend (emit_nonterminal (by decide) (by decide))
      (stepOK_cont ?_ ?_ ?_)
    · simp only [lexer.emit]
      rw [hli, hki, hl1input]
    · simp only [lexer.emit]
      rw [hki, hl1input] at hlq
      rw [hl1pos, hl1input] at hkq
      omega
    · simp only [lexMeasure, lexRank, lexer.emit]
      rw [hli, hki, hl1input]
      rw [hki, hl1input] at hlq
      rw [hl1pos, hl1input] at hkq
      rw [hl1pos] at hadv
      omega
  · rw [if_pos (by simp [hspace])]
    refine stepOK_cont (by rw [hl1input]) (by rw [hl1pos]; exact hp) ?_
    simp only [lexMeasure, lexRank]
    rw [hl1pos, hl1input]
    omega

theorem lexHeadingF_stepOK (l : lexer) (hp : l.pos ≤ l.input.length) :
    stepOK .heading l (lexHeadingF l) := by
  rw [lexHeadingF]
  obtain ⟨hsi, hsp1, hsq⟩ := scanStarsF_scanOK (lexRemaining l) l
  rcases hpk : (scanStarsF (lexRemaining l) l).peek with ⟨p, l2⟩
  dsimp only []
  have hl2 := peek_snd (scanStarsF (lexRemaining l) l)
  rw [hpk] at hl2
  dsimp only [] at hl2
  have hl2pos : l2.pos = (scanStarsF (lexRemaining l) l).pos := by rw [hl2]
  have hl2input : l2.input = (scanStarsF (lexRemaining l) l).input := by rw [hl2]
  have hpfst := peek_fst (scanStarsF (lexRemaining l) l)
  rw [hpk] at hpfst
  dsimp only [] at hpfst
  by_cases hspace : isSpaceO p = true
  · rw [if_neg (by simp [hspace])]
    obtain ⟨sp, hpeq, hspc⟩ : ∃ c, p = some c ∧ isSpaceChar c = true := by
      rcases p with _ | c
      · exact absurd hspace (by simp [isSpaceO])
      · exact ⟨c, rfl, by simpa [isSpaceO] using hspace⟩
    have hnext2 : (l2.next).1 = some sp := by
      rw [next_fst_congr l2 (scanStarsF (lexRemaining l) l)
        (by rw [hl2input]) hl2pos, ← hpfst, hpeq]
    have hadv := skipSpacesF_advance hnext2 hspc
    obtain ⟨hki, hkp, hkq⟩ := skipSpacesF_scanOK (lexRemaining l2) l2
    obtain ⟨hli, hlp, hlq⟩ := scanLineF_scanOK
      (lexRemaining (skipSpacesF (lexRemaining l2) l2).ignore)
      (skipSpacesF (lexRemaining l2) l2).ignore
    rw [ignore_input] at hli
    rw [ignore_pos] at hlp
    rw [ignore_pos, ignore_input] at hlq
    refine stepOK_prepend (emit_nonterminal (heading_kind_ne _ _).1
      (heading_kind_ne _ _).2) (stepOK_cont ?_ ?_ ?_)
    · simp only [lexer.emit]
      rw [hli, hki, hl2input, hsi]
    · simp only [lexer.emit]
      rw [hki, hl2input, hsi] at hlq
      rw [hl2pos] at hkq
      rw [hl2input, hsi] at hkq
      omega
    · simp only [lexMeasure, lexRank, lexer.emit]
      rw [hli, hki, hl2input, hsi]
      rw [hki, hl2input, hsi] at hlq
      rw [hl2pos] at hkq hadv
      rw [hl2input, hsi] at hkq
      omega
  · rw [if_pos (by simp [hspace])]
    refine stepOK_cont (by rw [hl2input, hsi]) ?_ ?_
    · rw [hl2pos]
      omega
    · simp only [lexMeasure, lexRank]
      rw [hl2pos, hl2input, hsi]
      omega

theorem lexOrderedListF_stepOK (l : lexer) (hp : l.pos ≤ l.input.length) :
    stepOK .orderedList l (lexOrderedListF l) := by
  rw [lexOrderedListF]
  rcases hsd : scanDigitsF (lexRemaining l) l with ⟨l1, dot⟩
  dsimp only []
  have hsdOK := scanDigitsF_scanOK (lexRemaining l) l
  rw [hsd] at hsdOK
  dsimp only [] at hsdOK
  obtain ⟨⟨hdi, hdp, hdq⟩, hdot⟩ := hsdOK
  by_cases hd : dot = true
  · rw [if_neg (by simp [hd])]
    have hstrict := hdot hd
    rcases hpk : l1.peek with ⟨p, l2⟩
    dsimp only []
    have hl2 := peek_snd l1
    rw [hpk] at hl2
    dsimp only [] at hl2
    have hl2pos : l2.pos = l1.pos := by rw [hl2]
    have hl2input : l2.input = l1.input := by rw [hl2]
    have hpfst := peek_fst l1
    rw [hpk] at hpfst
    dsimp only [] at hpfst
    by_cases hspace : isSpaceO p = true
    · rw [if_neg (by simp [hspace])]
      obtain ⟨sp, hpeq, hspc⟩ : ∃ c, p = some c ∧ isSpaceChar c = true := by
        rcases p with _ | c
        · exact absurd hspace (by simp [isSpaceO])
        · exact ⟨c, rfl, by simpa [isSpaceO] using hspace⟩
      have hnext2 : (l2.next).1 = some sp := by
        rw [next_fst_congr l2 l1 hl2input hl2pos, ← hpfst, hpeq]
      have hadv := skipSpacesF_advance hnext2 hspc
      obtain ⟨hki, hkp, hkq⟩ := skipSpacesF_scanOK (lexRemaining l2) l2
      obtain ⟨hli, hlp, hlq⟩ := scanLineF_scanOK
        (lexRemaining (skipSpacesF (lexRemaining l2) l2).ignore)
        (skipSpacesF (lexRemaining l2) l2).ignore
      rw [ignore_input] at hli
      rw [ignore_pos] at hlp
      rw [ignore_pos, ignore_input] at hlq
      refine stepOK_prepend (emit_nonterminal (by decide) (by decide))
        (stepOK_cont ?_ ?_ ?_)
      · simp only [lexer.emit]
        rw [hli, hki, hl2input, hdi]
      · simp only [lexer.emit]
        rw [hki, hl2input, hdi] at hlq
        rw [hl2pos] at hkq
        rw [hl2input, hdi] at hkq
        omega
      · simp only [lexMeasure, lexRank, lexer.emit]
        rw [hli, hki, hl2input, hdi]
        rw [hki, hl2input, hdi] at hlq
        rw [hl2pos] at hkq
        rw [hl2input, hdi] at hkq
        omega
    · rw [if_pos (by simp [hspace])]
      refine stepOK_cont (by rw [hl2input, hdi]) ?_ ?_
      · rw [hl2pos]
        omega
      · simp only [lexMeasure, lexRank]
        rw [hl2pos, hl2input, hdi]
        omega
  · rw [if_pos (by simp [hd])]
    refine stepOK_cont hdi ?_ ?_
    · omega
    · simp only [lexMeasure, lexRank]
      rw [hdi]
      omega

theorem lexKeywordF_stepOK (l : lexer) (hp : l.pos ≤ l.input.length) :
    stepOK .keyword l (lexKeywordF l) := by
  rw [lexKeywordF]
  rcases hsk : scanKeywordF (lexRemaining l) l with _ | l1
  · exact stepOK_halt rfl
  · obtain ⟨h1i, h1p, h1q⟩ := scanKeywordF_scanOK (lexRemaining l) l l1 hsk
    dsimp only []
    rcases hkf : keyFor (lowerString (substr l1.input l1.start l1.pos)) with _ | k
    · exact stepOK_halt rfl
    · dsimp only []
      obtain ⟨hk1, hk2⟩ := keyFor_ne hkf
      obtain ⟨hki, hkp, hkq⟩ := skipSpacesF_scanOK (lexRemaining l1) l1
      obtain ⟨hli, hlp, hlq⟩ := scanLineF_scanOK
        (lexRemaining (skipSpacesF (lexRemaining l1) l1).ignore)
        (skipSpacesF (lexRemaining l1) l1).ignore
      rw [ignore_input] at hli
      rw [ignore_pos] at hlp
      rw [ignore_pos, ignore_input] at hlq
      have hl5input : (((scanLineF
          (lexRemaining (skipSpacesF (lexRemaining l1) l1).ignore)
          (skipSpacesF (lexRemaining l1) l1).ignore).emit k).2).input = l.input := by
        simp only [lexer.emit]
        rw [hli, hki, h1i]
      have hl5pos : l.pos ≤ (((scanLineF
          (lexRemaining (skipSpacesF (lexRemaining l1) l1).ignore)
          (skipSpacesF (lexRemaining l1) l1).ignore).emit k).2).pos := by
        simp only [lexer.emit]
        omega
      have hl5le : (((scanLineF
          (lexRemaining (skipSpacesF (lexRemaining l1) l1).ignore)
          (skipSpacesF (lexRemaining l1) l1).ignore).emit k).2).pos ≤
          (((scanLineF
          (lexRemaining (skipSpacesF (lexRemaining l1) l1).ignore)
          (skipSpacesF (lexRemaining l1) l1).ignore).emit k).2).input.length := by
        simp only [lexer.emit]
        rw [hli, hki, h1i]
        rw [hki, h1i] at hlq
        rw [h1i] at hkq
        omega
      by_cases hfn : k = .footnotes
      · rw [if_pos hfn]
        rcases hfd : footnotesDispatch (((scanLineF
            (lexRemaining (skipSpacesF (lexRemaining l1) l1).ignore)
            (skipSpacesF (lexRemaining l1) l1).ignore).emit k).2) with ⟨rest, res⟩
        dsimp only []
        have hfdOK := footnotesDispatch_stepOK (((scanLineF
            (lexRemaining (skipSpacesF (lexRemaining l1) l1).ignore)
            (skipSpacesF (lexRemaining l1) l1).ignore).emit k).2) hl5le
        rw [hfd] at hfdOK
        exact stepOK_prepend (emit_nonterminal hk1 hk2)
          (stepOK_mono hfdOK hl5input hl5pos)
      · rw [if_neg hfn]
        rcases hkb : keywordBodyF (lexRemaining (((scanLineF
            (lexRemaining (skipSpacesF (lexRemaining l1) l1).ignore)
            (skipSpacesF (lexRemaining l1) l1).ignore).emit k).2)) (((scanLineF
            (lexRemaining (skipSpacesF (lexRemaining l1) l1).ignore)
            (skipSpacesF (lexRemaining l1) l1).ignore).emit k).2) with ⟨rest, res⟩
        dsimp only []
        have hkbOK := keywordBodyF_bodyOK (lexRemaining (((scanLineF
            (lexRemaining (skipSpacesF (lexRemaining l1) l1).ignore)
            (skipSpacesF (lexRemaining l1) l1).ignore).emit k).2)) (((scanLineF
            (lexRemaining (skipSpacesF (lexRemaining l1) l1).ignore)
            (skipSpacesF (lexRemaining l1) l1).ignore).emit k).2) hl5le
        rw [hkb] at hkbOK
        exact stepOK_prepend (emit_nonterminal hk1 hk2)
          (stepOK_of_bodyOK hkbOK hl5input hl5pos)

theorem lexParagraphF_stepOK : ∀ (fuel : Nat) (l : lexer),
    l.pos ≤ l.input.length → stepOK .paragraph l (lexParagraphF fuel l)
  | 0, l => by
    intro hp
    rw [lexParagraphF]
    exact stepOK_prepend (emit_nonterminal (by decide) (by decide)) (stepOK_halt rfl)
  | fuel+1, l => by
    intro hp
    rw [lexParagraphF]
    rcases next_cases l with ⟨hle, hnx⟩ | ⟨hlt, hnx⟩ <;> rw [hnx] <;> dsimp only []
    · rcases hpk : ({ l with width := 0 } : lexer).peek with ⟨b, l2⟩
      dsimp only []
      rw [if_neg (by simp [isNewlineO]), if_pos rfl]
      exact stepOK_prepend (emit_nonterminal (by decide) (by decide)) (stepOK_halt rfl)
    · rcases hpk : ({ l with pos := l.pos + 1, width := 1 } : lexer).peek with ⟨b, l2⟩
      dsimp only []
      have hl2 := peek_snd ({ l with pos := l.pos + 1, width := 1 } : lexer)
      rw [hpk] at hl2
      dsimp only [] at hl2
      have hl2pos : l2.pos = l.pos + 1 := by rw [hl2]
      have hl2input : l2.input = l.input := by rw [hl2]
      have hb := peek_fst ({ l with pos := l.pos + 1, width := 1 } : lexer)
      rw [hpk] at hb
      dsimp only [] at hb
      split
      · rename_i h1
        rw [Bool.and_eq_true] at h1
        obtain ⟨-, hb2⟩ := h1
        have hbsome : l.pos + 1 < l.input.length := by
          rcases next_cases ({ l with pos := l.pos + 1, width := 1 } : lexer) with
            ⟨h3, hnx3⟩ | ⟨h3, hnx3⟩
          · rw [hnx3] at hb
            rw [hb] at hb2
            exact absurd hb2 (by simp [isNewlineO])
          · simpa using h3
        have hl2width : l2.width = if l.pos + 1 < l.input.length then 1 else 0 := by
          rw [hl2]
        have hbkpos : (l2.backup).pos = l.pos := by
          simp only [lexer.backup]
          rw [hl2pos, hl2width, if_pos hbsome]
          omega
        have hbkinput : (l2.backup).input = l.input := by
          simp only [lexer.backup]
          rw [hl2input]
        rcases next_cases ((l2.backup.emit .paragraph).2) with ⟨h5, hnx5⟩ | ⟨h5, hnx5⟩
        · simp only [lexer.emit] at h5
          rw [hbkpos, hbkinput] at h5
          omega
        · rw [hnx5]
          dsimp only []
          simp only [lexer.emit] at h5 hnx5
          refine stepOK_prepend (emit_nonterminal (by decide) (by decide))
            (stepOK_cont ?_ ?_ ?_)
          · simp [lexer.ignore, lexer.emit, hbkinput]
          · simp only [lexer.ignore, lexer.emit]
            rw [hbkpos, hbkinput] at h5
            rw [hbkpos]
            omega
          · simp only [lexMeasure, lexRank, lexer.ignore, lexer.emit]
            rw [hbkpos, hbkinput]
            rw [hbkpos, hbkinput] at h5
            omega
      · rename_i h1
        split
        · rename_i h2
          exact absurd h2 (by simp)
        · rename_i h2
          split
          · rename_i h3
            exact stepOK_prepend (emit_nonterminal (by decide) (by decide))
              (stepOK_halt rfl)
          · rename_i h3
            obtain ⟨hsi, hsp2, hsq⟩ := scanLineF_scanOK (lexRemaining l2) l2
            refine stepOK_mono (lexParagraphF_stepOK fuel _ ?_) ?_ ?_
            · rw [hsi, hl2input]
              rw [hl2pos, hl2input] at hsq
              omega
            · rw [hsi, hl2input]
            · rw [hl2pos] at hsp2
              omega

theorem stepState_stepOK (s : lexState) (l : lexer) (hp : l.pos ≤ l.input.length) :
    stepOK s l (stepState s l) := by
  cases s with
  | block => exact lexBlockF_stepOK (lexRemaining l) l hp
  | keyword => exact lexKeywordF_stepOK l hp
  | heading => exact lexHeadingF_stepOK l hp
  | unorderedList => exact lexUnorderedListF_stepOK l hp
  | orderedList => exact lexOrderedListF_stepOK l hp
  | paragraph => exact lexParagraphF_stepOK (lexRemaining l) l hp

theorem runFuel_spec : ∀ (fuel : Nat) (s : lexState) (l : lexer),
    l.pos ≤ l.input.length → lexMeasure s l < fuel →
    ∃ pre t, runFuel fuel s l = pre ++ [t] ∧ isTerminalItem t = true ∧
      ∀ i ∈ pre, isTerminalItem i = false
  | 0, s, l => by
    intro hp hf
    exact absurd hf (by omega)
  | fuel+1, s, l => by
    intro hp hf
    rw [runFuel]
    have hOK := stepState_stepOK s l hp
    rcases hout : stepState s l with ⟨items, res⟩
    rw [hout] at hOK
    obtain ⟨ha, hb, hc⟩ := hOK
    dsimp only [] at ha hb hc
    rcases res with t | ⟨s2, l2⟩
    · exact ⟨items, t, rfl, hb t rfl, ha⟩
    · obtain ⟨e1, e2, e3⟩ := hc s2 l2 rfl
      have hp2 : l2.pos ≤ l2.input.length := by
        rw [e1]
        exact e2
      have hf2 : lexMeasure s2 l2 < fuel := by omega
      obtain ⟨pre, t, heq, hterm, hpre⟩ := runFuel_spec fuel s2 l2 hp2 hf2
      refine ⟨items ++ pre, t, ?_, hterm, ?_⟩
      · dsimp only []
        rw [heq, List.append_assoc]
      · intro i hi
        rcases List.mem_append.1 hi with hi | hi
        · exact ha i hi
        · exact hpre i hi

/-- **C4.** On every input the lexer's item sequence ends in exactly one
terminal item (`EOF` or `Error`): the sequence is a list of non-terminal
items followed by a single terminal item, and nothing follows it. -/
theorem C4_lexer_terminal (input : String) :
    ∃ pre t, lexItems input = pre ++ [t] ∧ isTerminalItem t = true ∧
      ∀ i ∈ pre, isTerminalItem i = false := by
  unfold lexItems
  exact runFuel_spec (4 * input.data.length + 4) .block ⟨input.data, 0, 0, 0⟩
    (by simp) (by simp only [lexMeasure, lexRank]; omega)
